import Mathlib

/-!
# A counting trie over `a`–`z` (`ky157872_lab10.c`)

Shallow embedding of the C program and a verification of its specification.

* A value of type `struct TrieNode*` is a `NodePtr`: either `NULL` or the address of a node
  with its 26 child pointers and its `int count`.  The structure is an ownership tree, so the
  node is identified with the subtree it owns.
* A value of type `struct Trie*` is an `Option Trie`, a `char*` is an `Option (List Char)`
  (the characters before the terminating NUL).
* `malloc` is an oracle: a list of outcomes of the coming calls.
* Undefined behaviour (a `NULL` dereference, an index outside `children[26]`) is a `Fault`.
* `int` is 32 bits wide; `count++` is taken modulo `2^32` in two's complement.
* The file read by `readDictionary` is the list of its characters; a buffer holds a C string,
  which ends at the first NUL.
* `deallocateTrie` is modelled by the sequence of its `free` calls; a node is named by its
  position, the slot indices on the way from the root.
-/

namespace Lab10

/-! ## Machine integers -/

/-- Largest value of a C `int` (32 bits). -/
def INT_MAX : Int := 2147483647

/-- Smallest value of a C `int` (32 bits). -/
def INT_MIN : Int := -2147483648

/-- Two's complement reduction of an integer into the range of `int`. -/
def wrapInt (x : Int) : Int := (x - INT_MIN) % 4294967296 + INT_MIN

/-! ## Data model -/

/-- A value of type `struct TrieNode*`: `NULL`, or a node with `children[26]` and `count`. -/
inductive NodePtr where
  | null : NodePtr
  | node (children : Fin 26 → NodePtr) (count : Int) : NodePtr

/-- The object `struct Trie`: a single field `root`. -/
structure Trie where
  root : NodePtr

/-- Undefined behaviour the program can run into. -/
inductive Fault where
  | nullDeref : Fault
  | outOfBounds : Fault
  deriving DecidableEq, Repr

/-- Test `p == NULL`. -/
def NodePtr.isNull : NodePtr → Bool
  | .null => true
  | .node _ _ => false

/-! ## Allocation -/

/-- One call of `malloc`: the oracle lists the outcomes of the coming calls (`true` is
success); once the list is used up every call succeeds. -/
def malloc : List Bool → Bool × List Bool
  | [] => (true, [])
  | b :: m => (b, m)

/-- Source `createTrieNode` (lines 19–31): a node with `count = 0` and 26 `NULL` children,
or `NULL` when `malloc` fails. -/
def createTrieNode (m : List Bool) : NodePtr × List Bool :=
  match malloc m with
  | (true, m') => (.node (fun _ => .null) 0, m')
  | (false, m') => (.null, m')

/-- Source `createTrie` (lines 124–133): `NULL` when the container cannot be allocated,
otherwise a trie whose root is whatever `createTrieNode` returned. -/
def createTrie (m : List Bool) : Option Trie × List Bool :=
  match malloc m with
  | (true, m') => (some ⟨(createTrieNode m').1⟩, (createTrieNode m').2)
  | (false, m') => (none, m')

/-! ## Character indexing -/

/-- The expression `word[i] - 'a'`, computed in `int`. -/
def slotIndex (c : Char) : Int := (c.toNat : Int) - ('a'.toNat : Int)

/-- The slot of `children[26]` addressed by `word[i] - 'a'`, when it is inside the array. -/
def childSlot (c : Char) : Option (Fin 26) :=
  if h : 0 ≤ slotIndex c ∧ slotIndex c < 26 then
    some ⟨(slotIndex c).toNat, by omega⟩
  else none

/-! ## Insertion -/

/-- The loop of `insert` (lines 42–53) started at `current`, on the rest of the word.
Returns the subtree owned by `current` after the call. -/
def insertLoop : List Bool → NodePtr → List Char → Except Fault (NodePtr × List Bool)
  | _, .null, _ => .error .nullDeref
  | m, .node ch c, [] => .ok (.node ch (wrapInt (c + 1)), m)
  | m, .node ch c, x :: xs =>
    match childSlot x with
    | none => .error .outOfBounds
    | some i =>
      let r := if (ch i).isNull then createTrieNode m else (ch i, m)
      match insertLoop r.2 r.1 xs with
      | .error e => .error e
      | .ok (child, m') => .ok (.node (Function.update ch i child) c, m')

/-- Source `insert` (lines 34–54).  The result is the object `pTrie` points to after the
call (`none` when `pTrie` is `NULL`) and the state of the allocator. -/
def insert (m : List Bool) : Option Trie → Option (List Char) →
    Except Fault (Option Trie × List Bool)
  | none, _ => .ok (none, m)
  | some t, none => .ok (some t, m)
  | some t, some w =>
    match insertLoop m t.root w with
    | .error e => .error e
    | .ok (r, m') => .ok (some ⟨r⟩, m')

/-- The insertion loop of `main` (lines 173–176): the words are inserted in order. -/
def insertAll : List Bool → Option Trie → List (List Char) →
    Except Fault (Option Trie × List Bool)
  | m, p, [] => .ok (p, m)
  | m, p, w :: ws =>
    match insert m p (some w) with
    | .error e => .error e
    | .ok (p', m') => insertAll m' p' ws

/-! ## Lookup -/

/-- Source `findTrieNode` (lines 57–71). -/
def findTrieNode : NodePtr → List Char → Except Fault NodePtr
  | current, [] => .ok current
  | .null, _ :: _ => .error .nullDeref
  | .node ch _, x :: xs =>
    match childSlot x with
    | none => .error .outOfBounds
    | some i => if (ch i).isNull then .ok .null else findTrieNode (ch i) xs

/-- Source `numberOfOccurrences` (lines 74–88). -/
def numberOfOccurrences : Option Trie → Option (List Char) → Except Fault Int
  | none, _ => .ok 0
  | some _, none => .ok 0
  | some t, some w =>
    match findTrieNode t.root w with
    | .error e => .error e
    | .ok .null => .ok 0
    | .ok (.node _ c) => .ok c

/-! ## Teardown -/

/-- What a call of `free` releases: the node at a position (the slot indices on the way
from the root), or the `struct Trie` container. -/
inductive Freed where
  | node (pos : List (Fin 26)) : Freed
  | trie : Freed
  deriving DecidableEq, Repr

/-- Source `deallocateTrieHelper` (lines 91–108), as the sequence of `free` calls it makes;
`pos` is the position of `node`. -/
def deallocateTrieHelper : NodePtr → List (Fin 26) → List Freed
  | .null, _ => []
  | .node ch _, pos =>
    ((List.finRange 26).map fun i =>
        if (ch i).isNull then [] else deallocateTrieHelper (ch i) (pos ++ [i])).flatten
      ++ [Freed.node pos]

/-- Source `deallocateTrie` (lines 111–121): the returned pointer and the `free` calls. -/
def deallocateTrie : Option Trie → Option Trie × List Freed
  | none => (none, [])
  | some t => (none, deallocateTrieHelper t.root [] ++ [Freed.trie])

/-! ## The program of `main` up to the queries -/

/-- Lines 172–176 of `main`: `createTrie` followed by the insertion of every word. -/
def build (m : List Bool) (L : List (List Char)) : Except Fault (Option Trie × List Bool) :=
  insertAll (createTrie m).2 (createTrie m).1 L

/-! ## Words -/

/-- A word over `a`–`z`. -/
def isWord (w : List Char) : Prop := ∀ c ∈ w, 'a'.toNat ≤ c.toNat ∧ c.toNat ≤ 'z'.toNat

instance (w : List Char) : Decidable (isWord w) := by
  unfold isWord; infer_instance

/-! ## Slot paths: the proof-level view of the tree -/

/-- The slots a word walks through (characters outside the array are skipped; a word over
`a`–`z` has none). -/
def path (w : List Char) : List (Fin 26) := w.filterMap childSlot

/-- The subtree at the end of a slot path, `NULL` when the path leaves the tree. -/
def sub : NodePtr → List (Fin 26) → NodePtr
  | t, [] => t
  | .null, _ :: _ => .null
  | .node ch _, i :: p => sub (ch i) p

/-- The `count` field of a node, `0` for `NULL`. -/
def NodePtr.countOr0 : NodePtr → Int
  | .null => 0
  | .node _ c => c

/-- Insertion along a slot path with every allocation succeeding. -/
def addPath : NodePtr → List (Fin 26) → NodePtr
  | .null, [] => .node (fun _ => .null) (wrapInt (0 + 1))
  | .node ch c, [] => .node ch (wrapInt (c + 1))
  | .null, i :: p => .node (Function.update (fun _ => .null) i (addPath .null p)) 0
  | .node ch c, i :: p => .node (Function.update ch i (addPath (ch i) p)) c

/-- The tree after the insertion of every word of a list, allocation succeeding. -/
def addAll (t : NodePtr) (L : List (List Char)) : NodePtr :=
  L.foldl (fun t w => addPath t (path w)) t

/-! ## The queries as transformers of the program state

The program state is the object `pTrie` points to together with the allocator.  The two
query functions are translated once more with the state passed through every statement, to
state that they leave it as it was. -/

/-- Source `findTrieNode` (lines 57–71) with the program state `s` passed through: the loop
reads `current->children[index]` and assigns only its local variables. -/
def findTrieNodeSt (s : Option Trie × List Bool) :
    NodePtr → List Char → Except Fault (NodePtr × (Option Trie × List Bool))
  | current, [] => .ok (current, s)
  | .null, _ :: _ => .error .nullDeref
  | .node ch _, x :: xs =>
    match childSlot x with
    | none => .error .outOfBounds
    | some i => if (ch i).isNull then .ok (.null, s) else findTrieNodeSt s (ch i) xs

/-- Source `numberOfOccurrences` (lines 74–88) with the program state passed through; the
trie argument is the one held by the state. -/
def numberOfOccurrencesSt (s : Option Trie × List Bool) (word : Option (List Char)) :
    Except Fault (Int × (Option Trie × List Bool)) :=
  match s.1, word with
  | none, _ => .ok (0, s)
  | some _, none => .ok (0, s)
  | some t, some w =>
    match findTrieNodeSt s t.root w with
    | .error e => .error e
    | .ok (.null, s') => .ok (0, s')
    | .ok (.node _ c, s') => .ok (c, s')

/-! ## Sample tries -/

/-- A trie that no sequence of insertions produces: the node of "n" has count 7 and no
child, the root has count 3. -/
def sampleTrie : Trie :=
  ⟨.node (Function.update (fun _ => .null) 13 (.node (fun _ => .null) 7)) 3⟩

/-- A trie in which the count of "a" has reached `INT_MAX`. -/
def fullTrie : Trie :=
  ⟨.node (Function.update (fun _ => .null) 0 (.node (fun _ => .null) INT_MAX)) 0⟩

/-- A trie with the single word "a": the node of "a" has count `c` and no child. -/
def oneWordTrie (c : Int) : NodePtr :=
  .node (Function.update (fun _ => .null) 0 (.node (fun _ => .null) c)) 0

/-! ## Measures of a tree -/

/-- The number of nodes of the tree owned by a pointer. -/
def NodePtr.size : NodePtr → Nat
  | .null => 0
  | .node ch _ => 1 + ((List.finRange 26).map fun i => (ch i).size).sum

/-- The sum of the `count` fields of all nodes of a tree, as an integer. -/
def NodePtr.sumCounts : NodePtr → Int
  | .null => 0
  | .node ch c => c + ((List.finRange 26).map fun i => (ch i).sumCounts).sum

/-- The path of a word exists in a tree: `findTrieNode` returns a node for it. -/
def pathExists (t : NodePtr) (w : List Char) : Prop :=
  ∃ r, findTrieNode t w = .ok r ∧ r.isNull = false

/-- The number of slots of a slot path that can be walked from a node before a `NULL`
slot is met. -/
def matchLen : NodePtr → List (Fin 26) → Nat
  | .node ch _, i :: p => if (ch i).isNull then 0 else 1 + matchLen (ch i) p
  | _, _ => 0

/-! ## The dictionary loader -/

/-- The newline character. -/
def NL : Char := Char.ofNat 10

/-- The NUL character, the terminator of a C string. -/
def NUL : Char := Char.ofNat 0

/-- The characters `fgets` reads when at most `n` characters fit: up to and including the
first newline, or up to the end of the file; and the rest of the file. -/
def fgetsChars : Nat → List Char → List Char × List Char
  | 0, file => ([], file)
  | _ + 1, [] => ([], [])
  | n + 1, c :: file =>
    if c = NL then ([c], file) else (c :: (fgetsChars n file).1, (fgetsChars n file).2)

/-- The call `fgets(buffer, size, file)`: `none` (a null pointer) at the end of the file,
otherwise the characters stored in the buffer (a NUL follows them); and the rest of the
file. -/
def fgets (size : Nat) (file : List Char) : Option (List Char) × List Char :=
  match file with
  | [] => (none, [])
  | _ :: _ => (some (fgetsChars (size - 1) file).1, (fgetsChars (size - 1) file).2)

/-- The C string held by a buffer whose characters are followed by a NUL: the characters
before the first NUL. -/
def cString (buf : List Char) : List Char := buf.takeWhile fun c => decide (c ≠ NUL)

/-- The call `strcspn(s, reject)` on C strings: the length of the longest initial segment of
`s` without a character of `reject`. -/
def strcspn (s reject : List Char) : Nat := (s.takeWhile fun c => decide (c ∉ reject)).length

/-- The call `strdup(buffer)`: a copy of the C string, or a null pointer when `malloc`
fails. -/
def strdup (m : List Bool) (buf : List Char) : Option (List Char) × List Bool :=
  match malloc m with
  | (true, m') => (some (cString buf), m')
  | (false, m') => (none, m')

/-- The loop of `readDictionary` (lines 148–154); `cap` is the number of elements of the
array `pInWords` points to, `words` the elements stored so far (`numWords` is their number).
Every iteration reads at least one character, so `fuel` above the length of the file is
never used up. -/
def readLoop (cap : Nat) : Nat → List Bool → List Char → List (Option (List Char)) →
    Except Fault (List (Option (List Char)) × List Bool)
  | 0, m, _, words => .ok (words, m)
  | fuel + 1, m, file, words =>
    match fgets 256 file with
    | (none, _) => .ok (words, m)
    | (some buf, rest) =>
      let buf' := buf.set (strcspn (cString buf) [NL]) NUL
      if words.length < cap then
        readLoop cap fuel (strdup m buf').2 rest (words ++ [(strdup m buf').1])
      else .error .outOfBounds

/-- Source `readDictionary` (lines 137–158).  `file` is the content of the file, `none`
when it cannot be opened (the process then exits: the result is `none`); otherwise the
result is the returned `numWords` and the elements stored in `pInWords`. -/
def readDictionary (m : List Bool) (file : Option (List Char)) (cap : Nat) :
    Except Fault (Option (Int × List (Option (List Char))) × List Bool) :=
  match file with
  | none => .ok (none, m)
  | some f =>
    match readLoop cap (f.length + 1) m f [] with
    | .error e => .error e
    | .ok (words, m') => .ok (some (wrapInt words.length, words), m')

/-! ## Arithmetic of `int` -/

theorem wrapInt_range (x : Int) : INT_MIN ≤ wrapInt x ∧ wrapInt x ≤ INT_MAX := by
  unfold wrapInt INT_MIN INT_MAX; omega

theorem wrapInt_of_range {x : Int} (h1 : INT_MIN ≤ x) (h2 : x ≤ INT_MAX) : wrapInt x = x := by
  unfold wrapInt INT_MIN INT_MAX at *; omega

/-! ## Words and slot paths -/

theorem childSlot_of_lower {c : Char} (h : 'a'.toNat ≤ c.toNat ∧ c.toNat ≤ 'z'.toNat) :
    ∃ i, childSlot c = some i ∧ (i : Nat) + 97 = c.toNat := by
  have ha : 'a'.toNat = 97 := by decide
  have hz : 'z'.toNat = 122 := by decide
  rw [ha, hz] at h
  have hs : slotIndex c = (c.toNat : Int) - 97 := by simp [slotIndex, ha]
  have hc : 0 ≤ slotIndex c ∧ slotIndex c < 26 := by omega
  refine ⟨⟨(slotIndex c).toNat, by omega⟩, ?_, ?_⟩
  · simp [childSlot, hc]
  · simp only []; omega

theorem isWord_cons {c : Char} {w : List Char} :
    isWord (c :: w) ↔ ('a'.toNat ≤ c.toNat ∧ c.toNat ≤ 'z'.toNat) ∧ isWord w := by
  simp [isWord]

theorem path_injective : ∀ {w w' : List Char}, isWord w → isWord w' → path w = path w' → w = w'
  | [], [], _, _, _ => rfl
  | [], c :: w', _, h', h => by
    obtain ⟨i, hi, _⟩ := childSlot_of_lower (isWord_cons.1 h').1
    simp [path, List.filterMap_cons, hi] at h
  | c :: w, [], h', _, h => by
    obtain ⟨i, hi, _⟩ := childSlot_of_lower (isWord_cons.1 h').1
    simp [path, List.filterMap_cons, hi] at h
  | c :: w, d :: w', hw, hw', h => by
    obtain ⟨i, hi, hic⟩ := childSlot_of_lower (isWord_cons.1 hw).1
    obtain ⟨j, hj, hjd⟩ := childSlot_of_lower (isWord_cons.1 hw').1
    simp only [path, List.filterMap_cons, hi, hj, List.cons.injEq] at h
    have hcd : c = d := by
      apply Char.ext; apply UInt32.ext
      have : c.toNat = d.toNat := by rw [← hic, ← hjd, h.1]
      exact this
    rw [hcd, path_injective (isWord_cons.1 hw).2 (isWord_cons.1 hw').2 h.2]

theorem path_cons_of_lower {c : Char} {w : List Char} {i : Fin 26} (h : childSlot c = some i) :
    path (c :: w) = i :: path w := by
  simp [path, List.filterMap_cons, h]

/-! ## The tree along slot paths -/

theorem sub_null (p : List (Fin 26)) : sub .null p = .null := by
  cases p <;> rfl

theorem addPath_null (p : List (Fin 26)) :
    addPath .null p = addPath (.node (fun _ => .null) 0) p := by
  cases p <;> rfl

theorem addPath_isNull (t : NodePtr) (p : List (Fin 26)) : (addPath t p).isNull = false := by
  cases t <;> cases p <;> rfl

/-- The count found at `q` after an insertion along `p`. -/
theorem count_addPath (t : NodePtr) (p q : List (Fin 26)) :
    (sub (addPath t p) q).countOr0 =
      if q = p then wrapInt ((sub t p).countOr0 + 1) else (sub t q).countOr0 := by
  induction p generalizing t q with
  | nil =>
    cases t <;> cases q <;> simp [addPath, sub, NodePtr.countOr0, sub_null]
  | cons i p ih =>
    cases q with
    | nil => cases t <;> simp [addPath, sub, NodePtr.countOr0]
    | cons j q =>
      by_cases hij : j = i
      · subst hij
        cases t with
        | null => simpa [addPath, sub, sub_null] using ih .null q
        | node ch c => simpa [addPath, sub] using ih (ch j) q
      · cases t with
        | null => simp [addPath, sub, sub_null, Function.update_noteq hij, hij, NodePtr.countOr0]
        | node ch c => simp [addPath, sub, Function.update_noteq hij, hij]

/-- The positions present after an insertion along `p`: those present before, and the
initial segments of `p`. -/
theorem present_addPath (t : NodePtr) (p q : List (Fin 26)) :
    (sub (addPath t p) q).isNull = false ↔ ((sub t q).isNull = false ∨ q <+: p) := by
  induction p generalizing t q with
  | nil =>
    cases t <;> cases q <;> simp [addPath, sub, NodePtr.isNull, sub_null]
  | cons i p ih =>
    cases q with
    | nil => cases t <;> simp [addPath, sub, NodePtr.isNull]
    | cons j q =>
      by_cases hij : j = i
      · subst hij
        cases t with
        | null => simpa [addPath, sub, sub_null, List.cons_prefix_cons] using ih .null q
        | node ch c => simpa [addPath, sub, List.cons_prefix_cons] using ih (ch j) q
      · cases t with
        | null =>
          simp [addPath, sub, sub_null, Function.update_noteq hij, hij, NodePtr.isNull,
            List.cons_prefix_cons]
        | node ch c => simp [addPath, sub, Function.update_noteq hij, hij, List.cons_prefix_cons]

/-! ## The C functions on words over `a`–`z`, every allocation succeeding -/

theorem createTrieNode_nil : createTrieNode [] = (.node (fun _ => .null) 0, []) := rfl

theorem insertLoop_eq (ch : Fin 26 → NodePtr) (c : Int) (w : List Char) (hw : isWord w) :
    insertLoop [] (.node ch c) w = .ok (addPath (.node ch c) (path w), []) := by
  induction w generalizing ch c with
  | nil => rfl
  | cons x xs ih =>
    obtain ⟨i, hi, _⟩ := childSlot_of_lower (isWord_cons.1 hw).1
    have hxs := (isWord_cons.1 hw).2
    rw [path_cons_of_lower hi]
    cases hc : ch i with
    | null =>
      simp only [insertLoop, hi, hc, NodePtr.isNull, createTrieNode_nil, if_true, ih _ _ hxs,
        addPath, addPath_null]
    | node ch2 c2 =>
      simp [insertLoop, hi, hc, NodePtr.isNull, ih _ _ hxs, addPath]

theorem findTrieNode_nil (t : NodePtr) : findTrieNode t [] = .ok t := by
  cases t <;> rfl

theorem findTrieNode_eq (ch : Fin 26 → NodePtr) (c : Int) (w : List Char) (hw : isWord w) :
    findTrieNode (.node ch c) w = .ok (sub (.node ch c) (path w)) := by
  induction w generalizing ch c with
  | nil => rfl
  | cons x xs ih =>
    obtain ⟨i, hi, _⟩ := childSlot_of_lower (isWord_cons.1 hw).1
    have hxs := (isWord_cons.1 hw).2
    rw [path_cons_of_lower hi]
    cases hc : ch i with
    | null => simp [findTrieNode, hi, hc, NodePtr.isNull, sub, sub_null]
    | node ch2 c2 => simp [findTrieNode, hi, hc, NodePtr.isNull, sub, ih _ _ hxs]

theorem numberOfOccurrences_eq (ch : Fin 26 → NodePtr) (c : Int) (w : List Char)
    (hw : isWord w) :
    numberOfOccurrences (some ⟨.node ch c⟩) (some w) =
      .ok (sub (.node ch c) (path w)).countOr0 := by
  simp only [numberOfOccurrences, findTrieNode_eq ch c w hw]
  cases sub (.node ch c) (path w) <;> rfl

theorem insert_eq (ch : Fin 26 → NodePtr) (c : Int) (w : List Char) (hw : isWord w) :
    insert [] (some ⟨.node ch c⟩) (some w) =
      .ok (some ⟨addPath (.node ch c) (path w)⟩, []) := by
  simp only [insert, insertLoop_eq ch c w hw]

theorem wrapInt_add_one (a : Int) (k : Int) : wrapInt (wrapInt (a + 1) + k) = wrapInt (a + (k + 1)) := by
  unfold wrapInt INT_MIN; omega

theorem addAll_isNull (t : NodePtr) (L : List (List Char)) (h : t.isNull = false) :
    (addAll t L).isNull = false := by
  induction L generalizing t with
  | nil => exact h
  | cons w L ih => exact ih _ (addPath_isNull t (path w))

theorem insert_eq_of_isNull (t : NodePtr) (h : t.isNull = false) (w : List Char)
    (hw : isWord w) :
    insert [] (some ⟨t⟩) (some w) = .ok (some ⟨addPath t (path w)⟩, []) := by
  cases t with
  | null => simp [NodePtr.isNull] at h
  | node ch c => exact insert_eq ch c w hw

theorem numberOfOccurrences_eq_of_isNull (t : NodePtr) (h : t.isNull = false) (w : List Char)
    (hw : isWord w) :
    numberOfOccurrences (some ⟨t⟩) (some w) = .ok (sub t (path w)).countOr0 := by
  cases t with
  | null => simp [NodePtr.isNull] at h
  | node ch c => exact numberOfOccurrences_eq ch c w hw

theorem findTrieNode_eq_of_isNull (t : NodePtr) (h : t.isNull = false) (w : List Char)
    (hw : isWord w) : findTrieNode t w = .ok (sub t (path w)) := by
  cases t with
  | null => simp [NodePtr.isNull] at h
  | node ch c => exact findTrieNode_eq ch c w hw

theorem insertAll_eq (t : NodePtr) (h : t.isNull = false) (L : List (List Char))
    (hL : ∀ w ∈ L, isWord w) :
    insertAll [] (some ⟨t⟩) L = .ok (some ⟨addAll t L⟩, []) := by
  induction L generalizing t with
  | nil => rfl
  | cons w L ih =>
    have hw : isWord w := hL w (List.mem_cons_self _ _)
    have hL2 : ∀ v ∈ L, isWord v := fun v hv => hL v (List.mem_cons_of_mem _ hv)
    simp only [insertAll, insert_eq_of_isNull t h w hw]
    exact ih _ (addPath_isNull t (path w)) hL2

theorem build_eq (L : List (List Char)) (hL : ∀ w ∈ L, isWord w) :
    build [] L = .ok (some ⟨addAll (.node (fun _ => .null) 0) L⟩, []) :=
  insertAll_eq (.node (fun _ => .null) 0) rfl L hL

/-- The count of a word after the insertion of a list of words: every occurrence adds one,
in the arithmetic of `int`. -/
theorem count_addAll (t : NodePtr) (L : List (List Char)) (W : List Char)
    (hL : ∀ w ∈ L, isWord w) (hW : isWord W)
    (h1 : INT_MIN ≤ (sub t (path W)).countOr0) (h2 : (sub t (path W)).countOr0 ≤ INT_MAX) :
    (sub (addAll t L) (path W)).countOr0 =
      wrapInt ((sub t (path W)).countOr0 + (L.count W : Int)) := by
  induction L generalizing t with
  | nil => simp [addAll, wrapInt_of_range h1 h2]
  | cons w L ih =>
    have hw : isWord w := hL w (List.mem_cons_self _ _)
    have hL2 : ∀ v ∈ L, isWord v := fun v hv => hL v (List.mem_cons_of_mem _ hv)
    have hstep := count_addPath t (path w) (path W)
    show (sub (addAll (addPath t (path w)) L) (path W)).countOr0 = _
    by_cases hWw : W = w
    · subst hWw
      rw [if_pos rfl] at hstep
      have hr := wrapInt_range ((sub t (path W)).countOr0 + 1)
      rw [ih _ hL2 (hstep ▸ hr.1) (hstep ▸ hr.2), hstep, wrapInt_add_one]
      simp [List.count_cons_self]
    · have hp : ¬ path W = path w := fun h => hWw (path_injective hW hw h)
      rw [if_neg hp] at hstep
      rw [ih _ hL2 (hstep ▸ h1) (hstep ▸ h2), hstep]
      have : (w :: L).count W = L.count W := by
        simp [List.count_cons, hWw, Ne.symm hWw]
      rw [this]

theorem present_addAll (t : NodePtr) (L : List (List Char)) (q : List (Fin 26)) :
    (sub (addAll t L) q).isNull = false ↔
      ((sub t q).isNull = false ∨ ∃ w ∈ L, q <+: path w) := by
  induction L generalizing t with
  | nil => simp [addAll]
  | cons w L ih =>
    show (sub (addAll (addPath t (path w)) L) q).isNull = false ↔ _
    rw [ih, present_addPath]
    simp only [List.mem_cons, exists_eq_or_imp, or_assoc]

theorem sub_fresh_isNull (q : List (Fin 26)) :
    (sub (.node (fun _ => .null) 0) q).isNull = false ↔ q = [] := by
  cases q <;> simp [sub, sub_null, NodePtr.isNull]

theorem path_eq_nil {W : List Char} (hW : isWord W) : path W = [] ↔ W = [] := by
  constructor
  · intro h
    exact path_injective hW (by simp [isWord]) h
  · rintro rfl; rfl

theorem path_append (u v : List Char) : path (u ++ v) = path u ++ path v := by
  simp [path, List.filterMap_append]

theorem isWord_append {u v : List Char} : isWord (u ++ v) ↔ isWord u ∧ isWord v := by
  simp only [isWord, List.mem_append]
  constructor
  · intro h
    exact ⟨fun c hc => h c (Or.inl hc), fun c hc => h c (Or.inr hc)⟩
  · rintro ⟨h1, h2⟩ c (hc | hc)
    · exact h1 c hc
    · exact h2 c hc

/-- On words over `a`–`z`, being an initial segment is the same for words and slot paths. -/
theorem path_isInitial {W w : List Char} (hW : isWord W) (hw : isWord w) :
    path W <+: path w ↔ W <+: w := by
  constructor
  · rintro ⟨r, hr⟩
    have hlen : ∀ {u : List Char}, isWord u → (path u).length = u.length := by
      intro u hu
      induction u with
      | nil => rfl
      | cons c u ih =>
        obtain ⟨i, hi, _⟩ := childSlot_of_lower (isWord_cons.1 hu).1
        rw [path_cons_of_lower hi, List.length_cons, List.length_cons, ih (isWord_cons.1 hu).2]
    have hsplit : w = w.take W.length ++ w.drop W.length := (List.take_append_drop _ _).symm
    have hw2 := hw
    rw [hsplit, isWord_append] at hw2
    have hle : W.length ≤ w.length := by
      have := congrArg List.length hr
      rw [List.length_append, hlen hW, hlen hw] at this
      omega
    have hp : path w = path (w.take W.length) ++ path (w.drop W.length) := by
      rw [← path_append, List.take_append_drop]
    have h1 : path W = path (w.take W.length) := by
      have hl : (path W).length = (path (w.take W.length)).length := by
        rw [hlen hW, hlen hw2.1, List.length_take, Nat.min_eq_left hle]
      rw [hp] at hr
      exact (List.append_inj hr hl).1
    have h2 : W = w.take W.length := path_injective hW hw2.1 h1
    rw [h2]
    exact List.take_prefix _ _
  · rintro ⟨r, rfl⟩
    rw [path_append]
    exact List.prefix_append _ _

theorem count_fresh (q : List (Fin 26)) : (sub (.node (fun _ => .null) 0) q).countOr0 = 0 := by
  cases q <;> simp [sub, sub_null, NodePtr.countOr0]

/-- What a query returns after `createTrie` and the insertion of a list of words. -/
theorem numberOfOccurrences_build (L : List (List Char)) (W : List Char)
    (hL : ∀ w ∈ L, isWord w) (hW : isWord W) :
    numberOfOccurrences (some ⟨addAll (.node (fun _ => .null) 0) L⟩) (some W) =
      .ok (wrapInt (L.count W : Int)) := by
  rw [numberOfOccurrences_eq_of_isNull _
      (addAll_isNull (.node (fun _ => .null) 0) L rfl) W hW,
    count_addAll _ L W hL hW (by rw [count_fresh]; decide) (by rw [count_fresh]; decide),
    count_fresh, Int.zero_add]

/-! ## The queries with the state passed through -/

theorem findTrieNodeSt_eq (s : Option Trie × List Bool) (current : NodePtr) (w : List Char) :
    findTrieNodeSt s current w = (findTrieNode current w).map fun r => (r, s) := by
  induction w generalizing current with
  | nil => cases current <;> rfl
  | cons x xs ih =>
    cases current with
    | null => rfl
    | node ch c =>
      simp only [findTrieNodeSt, findTrieNode]
      cases childSlot x with
      | none => rfl
      | some i =>
        simp only []
        split
        · rfl
        · exact ih (ch i)

theorem numberOfOccurrencesSt_eq (s : Option Trie × List Bool) (word : Option (List Char)) :
    numberOfOccurrencesSt s word = (numberOfOccurrences s.1 word).map fun n => (n, s) := by
  obtain ⟨p, m⟩ := s
  cases p with
  | none => rfl
  | some t =>
    cases word with
    | none => rfl
    | some w =>
      simp only [numberOfOccurrencesSt, numberOfOccurrences, findTrieNodeSt_eq]
      cases findTrieNode t.root w with
      | error e => rfl
      | ok r => cases r <;> rfl

/-! ## The claims -/

/-- C1 (as amended): for every list `L` of words over a-z and every word `W` over a-z that
occurs at most `INT_MAX` times in `L`, `createTrie` followed by `insert` of each word of `L`
in order returns normally, and `numberOfOccurrences` of `W` is then the number of positions
of `L` holding `W`. -/
theorem build_counts_occurrences (L : List (List Char)) (W : List Char)
    (hL : ∀ w ∈ L, isWord w) (hW : isWord W) (hn : (L.count W : Int) ≤ INT_MAX) :
    ∃ t, build [] L = .ok (some t, []) ∧
      numberOfOccurrences (some t) (some W) = .ok (L.count W : Int) := by
  refine ⟨⟨addAll (.node (fun _ => .null) 0) L⟩, build_eq L hL, ?_⟩
  rw [numberOfOccurrences_build L W hL hW, wrapInt_of_range _ hn]
  have : (0 : Int) ≤ (L.count W : Int) := Int.ofNat_nonneg _
  unfold INT_MIN; omega

/-- C1, the scenario of the specification: after `["ucf","knights","no"]` the count is 1
for "ucf", 0 for "note" and 0 for "corg". -/
theorem build_counts_occurrences_witness :
    ((∀ w ∈ ["ucf".toList, "knights".toList, "no".toList], isWord w) ∧ isWord "ucf".toList ∧
      ((["ucf".toList, "knights".toList, "no".toList].count "ucf".toList : Int) ≤ INT_MAX) ∧
      ∃ t, build [] ["ucf".toList, "knights".toList, "no".toList] = .ok (some t, []) ∧
        numberOfOccurrences (some t) (some "ucf".toList) =
          .ok (["ucf".toList, "knights".toList, "no".toList].count "ucf".toList : Int)) ∧
    ["ucf".toList, "knights".toList, "no".toList].count "ucf".toList = 1 ∧
    (∃ t, build [] ["ucf".toList, "knights".toList, "no".toList] = .ok (some t, []) ∧
        numberOfOccurrences (some t) (some "note".toList) = .ok 0 ∧
        numberOfOccurrences (some t) (some "corg".toList) = .ok 0) :=
  ⟨⟨by decide, by decide, by decide,
    build_counts_occurrences ["ucf".toList, "knights".toList, "no".toList] "ucf".toList
      (by decide) (by decide) (by decide)⟩, by decide, ⟨_, rfl, rfl, rfl⟩⟩

/-- C1 as stated fails: after 2^31 insertions of "a" the word occurs 2147483648 times in the
list, and `numberOfOccurrences` returns an `int`, here -2147483648. -/
theorem build_counts_occurrences_overflow :
    ∃ t, build [] (List.replicate 2147483648 "a".toList) = .ok (some t, []) ∧
      (List.replicate 2147483648 "a".toList).count "a".toList = 2147483648 ∧
      numberOfOccurrences (some t) (some "a".toList) = .ok (-2147483648) := by
  have hL : ∀ w ∈ List.replicate 2147483648 "a".toList, isWord w := by
    intro w hw
    rw [List.eq_of_mem_replicate hw]
    decide
  have hc : (List.replicate 2147483648 "a".toList).count "a".toList = 2147483648 :=
    List.count_replicate_self _ _
  refine ⟨_, build_eq _ hL, hc, ?_⟩
  rw [numberOfOccurrences_build _ _ hL (by decide), hc]
  rfl

/-- C2: for every trie with a root node and all words `W`, `W'` over a-z with `W' ≠ W`,
`insert` of `W` returns normally and `numberOfOccurrences` of `W'` is the same before and
after it (whatever the relation of the two words: one an initial segment of the other, or
sharing a beginning). -/
theorem insert_keeps_other_counts (t : Trie) (W W' : List Char)
    (hroot : t.root.isNull = false) (hW : isWord W) (hW' : isWord W') (hne : W' ≠ W) :
    ∃ t' n, insert [] (some t) (some W) = .ok (some t', []) ∧
      numberOfOccurrences (some t) (some W') = .ok n ∧
      numberOfOccurrences (some t') (some W') = .ok n := by
  obtain ⟨r⟩ := t
  refine ⟨⟨addPath r (path W)⟩, (sub r (path W')).countOr0,
    insert_eq_of_isNull r hroot W hW, numberOfOccurrences_eq_of_isNull r hroot W' hW', ?_⟩
  rw [numberOfOccurrences_eq_of_isNull _ (addPath_isNull r _) W' hW', count_addPath,
    if_neg (fun h => hne (path_injective hW' hW h))]

/-- C3 (as amended): for every trie with a root node and every word `W` over a-z, `insert`
of `W` returns normally, and when the count of `W` before the insert is an `int` below
`INT_MAX` the count after it is that count plus exactly 1, whether or not the path of `W`
existed. -/
theorem insert_increments_count (t : Trie) (W : List Char)
    (hroot : t.root.isNull = false) (hW : isWord W) :
    ∃ t' n, insert [] (some t) (some W) = .ok (some t', []) ∧
      numberOfOccurrences (some t) (some W) = .ok n ∧
      (INT_MIN ≤ n → n < INT_MAX →
        numberOfOccurrences (some t') (some W) = .ok (n + 1) ∧ n < n + 1) := by
  obtain ⟨r⟩ := t
  refine ⟨⟨addPath r (path W)⟩, (sub r (path W)).countOr0,
    insert_eq_of_isNull r hroot W hW, numberOfOccurrences_eq_of_isNull r hroot W hW, ?_⟩
  intro h1 h2
  rw [numberOfOccurrences_eq_of_isNull _ (addPath_isNull r _) W hW, count_addPath,
    if_pos rfl, wrapInt_of_range (by omega) (by omega)]
  exact ⟨rfl, by omega⟩

/-- C2 at a concrete trie: inserting "no" leaves the count of its initial segment "n",
inserting "n" leaves the count of its extension "no", and inserting "no" leaves the count
of "ni", which shares its first letter. -/
theorem insert_keeps_other_counts_witness :
    (sampleTrie.root.isNull = false ∧ isWord "no".toList ∧ isWord "n".toList ∧
      "n".toList ≠ "no".toList ∧
      ∃ t' n, insert [] (some sampleTrie) (some "no".toList) = .ok (some t', []) ∧
        numberOfOccurrences (some sampleTrie) (some "n".toList) = .ok n ∧
        numberOfOccurrences (some t') (some "n".toList) = .ok n) ∧
    (∃ t' n, insert [] (some sampleTrie) (some "n".toList) = .ok (some t', []) ∧
        numberOfOccurrences (some sampleTrie) (some "no".toList) = .ok n ∧
        numberOfOccurrences (some t') (some "no".toList) = .ok n) ∧
    (∃ t' n, insert [] (some sampleTrie) (some "no".toList) = .ok (some t', []) ∧
        numberOfOccurrences (some sampleTrie) (some "ni".toList) = .ok n ∧
        numberOfOccurrences (some t') (some "ni".toList) = .ok n) :=
  ⟨⟨rfl, by decide, by decide, by decide,
      insert_keeps_other_counts sampleTrie "no".toList "n".toList rfl (by decide) (by decide)
        (by decide)⟩,
    insert_keeps_other_counts sampleTrie "n".toList "no".toList rfl (by decide) (by decide)
      (by decide),
    insert_keeps_other_counts sampleTrie "no".toList "ni".toList rfl (by decide) (by decide)
      (by decide)⟩

/-- C3 at a concrete trie: "n" (path present, count 7) and "no" (path absent). -/
theorem insert_increments_count_witness :
    (sampleTrie.root.isNull = false ∧ isWord "n".toList ∧
      ∃ t' n, insert [] (some sampleTrie) (some "n".toList) = .ok (some t', []) ∧
        numberOfOccurrences (some sampleTrie) (some "n".toList) = .ok n ∧
        (INT_MIN ≤ n → n < INT_MAX →
          numberOfOccurrences (some t') (some "n".toList) = .ok (n + 1) ∧ n < n + 1)) ∧
    (∃ t', insert [] (some sampleTrie) (some "n".toList) = .ok (some t', []) ∧
        numberOfOccurrences (some sampleTrie) (some "n".toList) = .ok 7 ∧
        numberOfOccurrences (some t') (some "n".toList) = .ok 8) ∧
    (∃ t', insert [] (some sampleTrie) (some "no".toList) = .ok (some t', []) ∧
        numberOfOccurrences (some sampleTrie) (some "no".toList) = .ok 0 ∧
        numberOfOccurrences (some t') (some "no".toList) = .ok 1) :=
  ⟨⟨rfl, by decide, insert_increments_count sampleTrie "n".toList rfl (by decide)⟩,
    ⟨_, rfl, rfl, rfl⟩, ⟨_, rfl, rfl, rfl⟩⟩

/-- C3 as stated fails: when the count of "a" is `INT_MAX` before the insert, the count
after it is not `INT_MAX + 1` (no `int` is); it is -2147483648. -/
theorem insert_increments_count_overflow :
    ∃ t', insert [] (some fullTrie) (some "a".toList) = .ok (some t', []) ∧
      numberOfOccurrences (some fullTrie) (some "a".toList) = .ok 2147483647 ∧
      numberOfOccurrences (some t') (some "a".toList) = .ok (-2147483648) :=
  ⟨_, rfl, rfl, rfl⟩

/-- C4: with allocation succeeding, `createTrie` returns a trie whose root has all 26 child
slots absent and count 0; and whenever `createTrie` returns a trie with a root node, that
root is such a node and `numberOfOccurrences` is 0 for the empty word and for every word
over a-z. -/
theorem createTrie_is_empty :
    createTrie [] = (some ⟨.node (fun _ => .null) 0⟩, []) ∧
    ∀ (m : List Bool) (t : Trie), (createTrie m).1 = some t → t.root.isNull = false →
      t.root = .node (fun _ => .null) 0 ∧
      numberOfOccurrences (some t) (some []) = .ok 0 ∧
      ∀ w, isWord w → numberOfOccurrences (some t) (some w) = .ok 0 := by
  refine ⟨rfl, ?_⟩
  intro m t ht hroot
  have hfresh : t.root = .node (fun _ => .null) 0 := by
    rcases m with _ | ⟨_ | _, _ | ⟨_ | _, m⟩⟩ <;>
      simp [createTrie, createTrieNode, malloc] at ht <;>
      subst ht <;> first | rfl | simp [NodePtr.isNull] at hroot
  obtain ⟨r⟩ := t
  simp only at hfresh
  subst hfresh
  refine ⟨rfl, rfl, ?_⟩
  intro w hw
  rw [numberOfOccurrences_eq _ _ w hw, count_fresh]

/-- C4 at concrete inputs: the first two allocations succeed; the queries "ucf" and the
empty word return 0. -/
theorem createTrie_is_empty_witness :
    (createTrie [true, true, false]).1 = some ⟨.node (fun _ => .null) 0⟩ ∧
    (NodePtr.node (fun _ => .null) 0).isNull = false ∧ isWord "ucf".toList ∧
    numberOfOccurrences (some ⟨.node (fun _ => .null) 0⟩) (some "ucf".toList) = .ok 0 ∧
    numberOfOccurrences (some ⟨.node (fun _ => .null) 0⟩) (some []) = .ok 0 :=
  ⟨rfl, rfl, by decide,
    (createTrie_is_empty.2 [true, true, false] ⟨.node (fun _ => .null) 0⟩ rfl rfl).2.2
      "ucf".toList (by decide),
    (createTrie_is_empty.2 [true, true, false] ⟨.node (fun _ => .null) 0⟩ rfl rfl).2.1⟩

/-- C5: `numberOfOccurrences` returns 0 when `pTrie` is null, whatever the word (null
included), and when the word is null, whatever the trie; no fault can occur. -/
theorem numberOfOccurrences_null (p : Option Trie) (w : Option (List Char)) :
    numberOfOccurrences none w = .ok 0 ∧ numberOfOccurrences p none = .ok 0 := by
  cases p <;> exact ⟨rfl, rfl⟩

/-- C6: `insert` with a null word returns normally and leaves the trie and the allocator
as they were; `insert` with a null trie returns normally and changes no state. -/
theorem insert_null (m : List Bool) (t : Trie) (w : Option (List Char)) :
    insert m (some t) none = .ok (some t, m) ∧ insert m none w = .ok (none, m) :=
  ⟨rfl, rfl⟩

/-- C7 (as amended): after `createTrie` and the insertion of a list `L` of words over a-z,
`findTrieNode` on a word `W` over a-z returns normally, and what it returns is a node (not
`NULL`) if and only if `W` is empty or `W` is an initial segment of a word of `L`; for the
empty word it returns the root. -/
theorem findTrieNode_found_iff (L : List (List Char)) (W : List Char)
    (hL : ∀ w ∈ L, isWord w) (hW : isWord W) :
    ∃ t r, build [] L = .ok (some t, []) ∧ findTrieNode t.root W = .ok r ∧
      (r.isNull = false ↔ (W = [] ∨ ∃ w ∈ L, W <+: w)) ∧
      findTrieNode t.root [] = .ok t.root := by
  refine ⟨⟨addAll (.node (fun _ => .null) 0) L⟩, _, build_eq L hL,
    findTrieNode_eq_of_isNull _ (addAll_isNull (.node (fun _ => .null) 0) L rfl) W hW, ?_,
    findTrieNode_nil _⟩
  rw [present_addAll, sub_fresh_isNull, path_eq_nil hW]
  constructor
  · rintro (h | ⟨w, hw, hp⟩)
    · exact Or.inl h
    · exact Or.inr ⟨w, hw, (path_isInitial hW (hL w hw)).1 hp⟩
  · rintro (h | ⟨w, hw, hp⟩)
    · exact Or.inl h
    · exact Or.inr ⟨w, hw, (path_isInitial hW (hL w hw)).2 hp⟩

/-- C7 at concrete inputs: after "note" and "no", the word "not" is found and "nob" is
not. -/
theorem findTrieNode_found_iff_witness :
    (∀ w ∈ ["note".toList, "no".toList], isWord w) ∧ isWord "not".toList ∧
    (∃ t r, build [] ["note".toList, "no".toList] = .ok (some t, []) ∧
      findTrieNode t.root "not".toList = .ok r ∧
      (r.isNull = false ↔
        ("not".toList = [] ∨ ∃ w ∈ ["note".toList, "no".toList], "not".toList <+: w)) ∧
      findTrieNode t.root [] = .ok t.root) ∧
    (∃ t, build [] ["note".toList, "no".toList] = .ok (some t, []) ∧
      findTrieNode t.root "nob".toList = .ok .null) :=
  ⟨by decide, by decide,
    findTrieNode_found_iff ["note".toList, "no".toList] "not".toList (by decide) (by decide),
    ⟨_, rfl, rfl⟩⟩

/-- C7 as stated fails: with no word inserted, `findTrieNode` on the empty word returns the
root, a node, although the empty word is an initial segment of no inserted word. -/
theorem findTrieNode_found_empty_list :
    ∃ t, build [] [] = .ok (some t, []) ∧ findTrieNode t.root [] = .ok t.root ∧
      t.root.isNull = false ∧ ¬ ∃ w ∈ ([] : List (List Char)), ([] : List Char) <+: w :=
  ⟨_, rfl, rfl, rfl, by simp⟩

/-- C8: after `createTrie` and the insertion of a list `L` of words over a-z, for every
word `W` that is a proper initial segment of a word of `L` and is not itself in `L`,
`findTrieNode` finds a node for `W` and `numberOfOccurrences` of `W` returns 0. -/
theorem proper_initial_segment_counts_zero (L : List (List Char)) (W : List Char)
    (hL : ∀ w ∈ L, isWord w) (hpre : ∃ w ∈ L, W <+: w ∧ W ≠ w) (hnot : W ∉ L) :
    ∃ t r, build [] L = .ok (some t, []) ∧ findTrieNode t.root W = .ok r ∧
      r.isNull = false ∧ numberOfOccurrences (some t) (some W) = .ok 0 := by
  obtain ⟨w, hw, ⟨v, hv⟩, _⟩ := hpre
  have hW : isWord W := by
    have := hL w hw
    rw [← hv, isWord_append] at this
    exact this.1
  refine ⟨⟨addAll (.node (fun _ => .null) 0) L⟩, _, build_eq L hL,
    findTrieNode_eq_of_isNull _ (addAll_isNull (.node (fun _ => .null) 0) L rfl) W hW, ?_, ?_⟩
  · rw [present_addAll]
    exact Or.inr ⟨w, hw, (path_isInitial hW (hL w hw)).2 ⟨v, hv⟩⟩
  · rw [numberOfOccurrences_build L W hL hW, List.count_eq_zero_of_not_mem hnot]
    rfl

/-- C8, the scenario of the specification: after "note" and "no" twice, the query "not"
finds a node and yields 0, and the query "no" yields 2. -/
theorem proper_initial_segment_counts_zero_witness :
    (∀ w ∈ ["note".toList, "no".toList, "no".toList], isWord w) ∧
    (∃ w ∈ ["note".toList, "no".toList, "no".toList], "not".toList <+: w ∧ "not".toList ≠ w) ∧
    "not".toList ∉ ["note".toList, "no".toList, "no".toList] ∧
    (∃ t r, build [] ["note".toList, "no".toList, "no".toList] = .ok (some t, []) ∧
      findTrieNode t.root "not".toList = .ok r ∧ r.isNull = false ∧
      numberOfOccurrences (some t) (some "not".toList) = .ok 0) ∧
    (∃ t, build [] ["note".toList, "no".toList, "no".toList] = .ok (some t, []) ∧
      numberOfOccurrences (some t) (some "no".toList) = .ok 2) :=
  ⟨by decide, ⟨"note".toList, by decide, by decide, by decide⟩, by decide,
    proper_initial_segment_counts_zero ["note".toList, "no".toList, "no".toList] "not".toList
      (by decide) ⟨"note".toList, by decide, by decide, by decide⟩ (by decide),
    ⟨_, rfl, rfl⟩⟩

/-- C9: for every trie with a root node, every state of the allocator and every word `W`
over a-z, `findTrieNode` and `numberOfOccurrences` return normally and leave the program
state (the trie: its nodes, child slots and counts; and the allocator) exactly as it was, so
a second query of `W` made in the state left by the first returns the same value. -/
theorem queries_read_only (m : List Bool) (t : Trie) (W : List Char)
    (hroot : t.root.isNull = false) (hW : isWord W) :
    ∃ r n, findTrieNodeSt (some t, m) t.root W = .ok (r, (some t, m)) ∧
      numberOfOccurrencesSt (some t, m) (some W) = .ok (n, (some t, m)) ∧
      ((numberOfOccurrencesSt (some t, m) (some W)).bind fun a =>
        numberOfOccurrencesSt a.2 (some W)) = .ok (n, (some t, m)) ∧
      findTrieNode t.root W = .ok r ∧ numberOfOccurrences (some t) (some W) = .ok n := by
  obtain ⟨root⟩ := t
  have hf := findTrieNode_eq_of_isNull root hroot W hW
  have hn := numberOfOccurrences_eq_of_isNull root hroot W hW
  have h2 : numberOfOccurrencesSt (some ⟨root⟩, m) (some W) =
      .ok ((sub root (path W)).countOr0, (some ⟨root⟩, m)) := by
    rw [numberOfOccurrencesSt_eq, hn]; rfl
  refine ⟨sub root (path W), (sub root (path W)).countOr0, ?_, h2, ?_, hf, hn⟩
  · rw [findTrieNodeSt_eq, hf]; rfl
  · rw [h2]; exact h2

/-- C9 at a concrete trie: the query "n" returns 7 and the state it was given. -/
theorem queries_read_only_witness :
    sampleTrie.root.isNull = false ∧ isWord "n".toList ∧
    (∃ r n, findTrieNodeSt (some sampleTrie, [false]) sampleTrie.root "n".toList =
        .ok (r, (some sampleTrie, [false])) ∧
      numberOfOccurrencesSt (some sampleTrie, [false]) (some "n".toList) =
        .ok (n, (some sampleTrie, [false])) ∧
      ((numberOfOccurrencesSt (some sampleTrie, [false]) (some "n".toList)).bind fun a =>
        numberOfOccurrencesSt a.2 (some "n".toList)) = .ok (n, (some sampleTrie, [false])) ∧
      findTrieNode sampleTrie.root "n".toList = .ok r ∧
      numberOfOccurrences (some sampleTrie) (some "n".toList) = .ok n) ∧
    numberOfOccurrencesSt (some sampleTrie, [false]) (some "n".toList) =
      .ok (7, (some sampleTrie, [false])) :=
  ⟨rfl, by decide, queries_read_only [false] sampleTrie "n".toList rfl (by decide), rfl⟩

/-- C10: `deallocateTrie` returns the null pointer for every argument, a null trie (for
which it frees nothing) and a trie of any shape. -/
theorem deallocateTrie_returns_null (p : Option Trie) :
    (deallocateTrie p).1 = none ∧ deallocateTrie none = (none, []) := by
  cases p <;> exact ⟨rfl, rfl⟩

/-! ## Teardown: the sequence of `free` calls -/

theorem sub_isNull_of_cons {t : NodePtr} {i : Fin 26} {q : List (Fin 26)}
    (h : (sub t (i :: q)).isNull = false) :
    ∃ ch c, t = .node ch c ∧ (sub (ch i) q).isNull = false := by
  cases t with
  | null => simp [sub, NodePtr.isNull] at h
  | node ch c => exact ⟨ch, c, rfl, h⟩

theorem isNull_of_sub {t : NodePtr} {q : List (Fin 26)} (h : (sub t q).isNull = false) :
    t.isNull = false := by
  cases t with
  | null => simp [sub_null, NodePtr.isNull] at h
  | node ch c => rfl

/-- The nodes released by `deallocateTrieHelper` are the nodes of the subtree. -/
theorem mem_deallocateTrieHelper (t : NodePtr) (pos : List (Fin 26)) (x : Freed) :
    x ∈ deallocateTrieHelper t pos ↔
      ∃ q, x = Freed.node (pos ++ q) ∧ (sub t q).isNull = false := by
  induction t generalizing pos with
  | null => simp [deallocateTrieHelper, sub_null, NodePtr.isNull]
  | node ch c ih =>
    simp only [deallocateTrieHelper, List.mem_append, List.mem_flatten, List.mem_map,
      List.mem_finRange, true_and, List.mem_singleton]
    constructor
    · rintro (⟨l, ⟨i, rfl⟩, hx⟩ | rfl)
      · split at hx
        · simp at hx
        · obtain ⟨q, rfl, hq⟩ := (ih i (pos ++ [i])).1 hx
          exact ⟨i :: q, by simp, hq⟩
      · exact ⟨[], by simp, rfl⟩
    · rintro ⟨q, rfl, hq⟩
      cases q with
      | nil => right; simp
      | cons i q =>
        left
        have hq2 : (sub (ch i) q).isNull = false := hq
        refine ⟨_, ⟨i, rfl⟩, ?_⟩
        rw [if_neg (by simp [isNull_of_sub hq2])]
        exact (ih i (pos ++ [i])).2 ⟨q, by simp, hq2⟩

/-- No node is released twice. -/
theorem nodup_deallocateTrieHelper (t : NodePtr) (pos : List (Fin 26)) :
    (deallocateTrieHelper t pos).Nodup := by
  induction t generalizing pos with
  | null => simp [deallocateTrieHelper]
  | node ch c ih =>
    simp only [deallocateTrieHelper]
    rw [List.nodup_append]
    refine ⟨?_, List.nodup_singleton _, ?_⟩
    · rw [List.nodup_flatten]
      constructor
      · intro l hl
        obtain ⟨i, _, rfl⟩ := List.mem_map.1 hl
        split
        · exact List.nodup_nil
        · exact ih i _
      · rw [List.pairwise_map]
        refine (List.nodup_finRange 26).pairwise_of_forall_ne ?_
        intro i _ j _ hij x hxi hxj
        have hi : x ∈ deallocateTrieHelper (ch i) (pos ++ [i]) := by
          split at hxi
          · simp at hxi
          · exact hxi
        have hj : x ∈ deallocateTrieHelper (ch j) (pos ++ [j]) := by
          split at hxj
          · simp at hxj
          · exact hxj
        obtain ⟨q, rfl, _⟩ := (mem_deallocateTrieHelper _ _ _).1 hi
        obtain ⟨q', h, _⟩ := (mem_deallocateTrieHelper _ _ _).1 hj
        simp at h
        exact hij h.1
    · intro x hx hx2
      rw [List.mem_singleton] at hx2
      subst hx2
      obtain ⟨l, hl, hxl⟩ := List.mem_flatten.1 hx
      obtain ⟨i, _, rfl⟩ := List.mem_map.1 hl
      split at hxl
      · simp at hxl
      · obtain ⟨q, h, _⟩ := (mem_deallocateTrieHelper _ _ _).1 hxl
        simp at h

theorem pair_sublist_flatten_map {α : Type} (f : Fin 26 → List α) (l : List (Fin 26))
    (hl : l.Pairwise (· < ·)) (i j : Fin 26) (hi : i ∈ l) (hj : j ∈ l) (hij : i < j)
    (x y : α) (hx : x ∈ f i) (hy : y ∈ f j) : List.Sublist [x, y] (l.map f).flatten := by
  induction l with
  | nil => simp at hi
  | cons a l ih =>
    rw [List.pairwise_cons] at hl
    simp only [List.map_cons, List.flatten_cons]
    rcases List.mem_cons.1 hi with rfl | hi'
    · rcases List.mem_cons.1 hj with rfl | hj'
      · exact absurd hij (lt_irrefl _)
      · have h1 : List.Sublist [x] (f i) := List.singleton_sublist.2 hx
        have h2 : List.Sublist [y] (l.map f).flatten :=
          List.singleton_sublist.2 (List.mem_flatten.2 ⟨f j, List.mem_map.2 ⟨j, hj', rfl⟩, hy⟩)
        exact h1.append h2
    · rcases List.mem_cons.1 hj with rfl | hj'
      · exact absurd (lt_trans (hl.1 i hi') hij) (lt_irrefl _)
      · exact (ih hl.2 hi' hj').trans (List.sublist_append_right _ _)

theorem child_sublist_deallocateTrieHelper (ch : Fin 26 → NodePtr) (c : Int)
    (pos : List (Fin 26)) (i : Fin 26) (h : (ch i).isNull = false) :
    List.Sublist (deallocateTrieHelper (ch i) (pos ++ [i]))
      (deallocateTrieHelper (.node ch c) pos) := by
  simp only [deallocateTrieHelper]
  refine List.Sublist.trans ?_ (List.sublist_append_left _ _)
  apply List.sublist_flatten_of_mem
  refine List.mem_map.2 ⟨i, List.mem_finRange i, ?_⟩
  rw [if_neg (by simp [h])]

/-- Post-order: every node below a node is released before it. -/
theorem descendant_before (t : NodePtr) (pos p r : List (Fin 26)) (hr : r ≠ [])
    (h : (sub t (p ++ r)).isNull = false) :
    List.Sublist [Freed.node (pos ++ (p ++ r)), Freed.node (pos ++ p)]
      (deallocateTrieHelper t pos) := by
  induction p generalizing t pos with
  | nil =>
    have hx : Freed.node (pos ++ r) ∈ deallocateTrieHelper t pos :=
      (mem_deallocateTrieHelper t pos _).2 ⟨r, rfl, h⟩
    cases t with
    | null => simp [deallocateTrieHelper] at hx
    | node ch c =>
      simp only [deallocateTrieHelper, List.mem_append, List.mem_singleton] at hx ⊢
      rcases hx with hx | hx
      · simpa using (List.singleton_sublist.2 hx).append (List.Sublist.refl [Freed.node pos])
      · simp at hx; exact absurd hx hr
  | cons i p ih =>
    obtain ⟨ch, c, rfl, hsub⟩ := sub_isNull_of_cons (q := p ++ r) h
    have := ih (ch i) (pos ++ [i]) hsub
    simp only [List.append_assoc, List.singleton_append] at this
    exact this.trans (child_sublist_deallocateTrieHelper ch c pos i (isNull_of_sub hsub))

/-- Child slots are visited in index order: the subtree of a slot is released before the
subtree of every later slot of the same node. -/
theorem earlier_slot_before (t : NodePtr) (pos p r1 r2 : List (Fin 26)) (i j : Fin 26)
    (hij : i < j) (h1 : (sub t (p ++ i :: r1)).isNull = false)
    (h2 : (sub t (p ++ j :: r2)).isNull = false) :
    List.Sublist [Freed.node (pos ++ (p ++ i :: r1)), Freed.node (pos ++ (p ++ j :: r2))]
      (deallocateTrieHelper t pos) := by
  induction p generalizing t pos with
  | nil =>
    obtain ⟨ch, c, rfl, hs1⟩ := sub_isNull_of_cons (q := r1) h1
    have hs2 : (sub (ch j) r2).isNull = false := h2
    simp only [deallocateTrieHelper, List.nil_append]
    refine List.Sublist.trans ?_ (List.sublist_append_left _ _)
    apply pair_sublist_flatten_map _ _ (List.pairwise_lt_finRange 26) i j
      (List.mem_finRange i) (List.mem_finRange j) hij
    · rw [if_neg (by simp [isNull_of_sub hs1])]
      exact (mem_deallocateTrieHelper _ _ _).2 ⟨r1, by simp, hs1⟩
    · rw [if_neg (by simp [isNull_of_sub hs2])]
      exact (mem_deallocateTrieHelper _ _ _).2 ⟨r2, by simp, hs2⟩
  | cons k p ih =>
    obtain ⟨ch, c, rfl, hs1⟩ := sub_isNull_of_cons (q := p ++ i :: r1) h1
    have hs2 : (sub (ch k) (p ++ j :: r2)).isNull = false := h2
    have := ih (ch k) (pos ++ [k]) hs1 hs2
    simp only [List.append_assoc, List.singleton_append] at this
    exact this.trans (child_sublist_deallocateTrieHelper ch c pos k (isNull_of_sub hs1))

/-- C11: for every trie, the `free` calls of `deallocateTrie` release no node twice, release
exactly the nodes reachable from the root, release every node below a node before that node
(post-order), release the subtree of a child slot before the subtree of every later slot
(index order 0..25), and release the `Trie` container last; the recursion is total. -/
theorem deallocateTrie_postorder (t : Trie) :
    (deallocateTrie (some t)).2.Nodup ∧
    (∀ p, Freed.node p ∈ (deallocateTrie (some t)).2 ↔ (sub t.root p).isNull = false) ∧
    (∀ p r, r ≠ [] → (sub t.root (p ++ r)).isNull = false →
      List.Sublist [Freed.node (p ++ r), Freed.node p] (deallocateTrie (some t)).2) ∧
    (∀ p r1 r2 (i j : Fin 26), i < j → (sub t.root (p ++ i :: r1)).isNull = false →
      (sub t.root (p ++ j :: r2)).isNull = false →
      List.Sublist [Freed.node (p ++ i :: r1), Freed.node (p ++ j :: r2)]
        (deallocateTrie (some t)).2) ∧
    (∃ l, (deallocateTrie (some t)).2 = l ++ [Freed.trie] ∧ Freed.trie ∉ l) := by
  have hno : Freed.trie ∉ deallocateTrieHelper t.root [] := by
    intro h
    obtain ⟨q, hq, _⟩ := (mem_deallocateTrieHelper _ _ _).1 h
    cases hq
  refine ⟨?_, ?_, ?_, ?_, ⟨_, rfl, hno⟩⟩
  · simp only [deallocateTrie]
    rw [List.nodup_append]
    refine ⟨nodup_deallocateTrieHelper _ _, List.nodup_singleton _, ?_⟩
    intro x hx hx2
    rw [List.mem_singleton] at hx2
    exact hno (hx2 ▸ hx)
  · intro p
    simp only [deallocateTrie, List.mem_append, List.mem_singleton, mem_deallocateTrieHelper,
      List.nil_append, Freed.node.injEq]
    constructor
    · rintro (⟨q, rfl, hq⟩ | h)
      · exact hq
      · cases h
    · intro h; exact Or.inl ⟨p, rfl, h⟩
  · intro p r hr h
    have := descendant_before t.root [] p r hr h
    simp only [List.nil_append] at this
    exact this.trans (List.sublist_append_left _ _)
  · intro p r1 r2 i j hij h1 h2
    have := earlier_slot_before t.root [] p r1 r2 i j hij h1 h2
    simp only [List.nil_append] at this
    exact this.trans (List.sublist_append_left _ _)

/-- C11 at a concrete trie: after "ab" and "c" the calls of `free` are, in order, the node
of "ab", the node of "a", the node of "c", the root, the container. -/
theorem deallocateTrie_postorder_witness :
    (∃ t, build [] ["ab".toList, "c".toList] = .ok (some t, []) ∧
      (deallocateTrie (some t)).2 =
        [Freed.node [0, 1], Freed.node [0], Freed.node [2], Freed.node [], Freed.trie]) ∧
    List.Sublist [Freed.node ([] ++ [13]), Freed.node []] (deallocateTrie (some sampleTrie)).2 :=
  ⟨⟨_, rfl, rfl⟩, (deallocateTrie_postorder sampleTrie).2.2.1 [] [13] (by simp) rfl⟩

/-! ## The root and the empty word -/

theorem sub_nil (t : NodePtr) : sub t [] = t := by
  cases t <;> rfl

/-- C12 (as amended): in every trie obtained from `createTrie` by a sequence of `insert`
calls with non-empty words over a-z, the count of the root is 0. -/
theorem root_count_zero (L : List (List Char)) (hL : ∀ w ∈ L, isWord w)
    (hne : ∀ w ∈ L, w ≠ []) :
    ∃ ch, build [] L = .ok (some ⟨.node ch 0⟩, []) := by
  have hcount : (sub (addAll (.node (fun _ => .null) 0) L) (path [])).countOr0 = 0 := by
    rw [count_addAll _ L [] hL (by simp [isWord]) (by rw [count_fresh]; decide)
      (by rw [count_fresh]; decide), count_fresh,
      List.count_eq_zero_of_not_mem (fun h => hne [] h rfl)]
    rfl
  have hnull := addAll_isNull (.node (fun _ => .null) 0) L rfl
  have hb := build_eq L hL
  change (sub (addAll (.node (fun _ => .null) 0) L) []).countOr0 = 0 at hcount
  rw [sub_nil] at hcount
  cases h : addAll (.node (fun _ => .null) 0) L with
  | null => rw [h] at hnull; simp [NodePtr.isNull] at hnull
  | node ch c =>
    rw [h] at hcount hb
    simp only [NodePtr.countOr0] at hcount
    subst hcount
    exact ⟨ch, hb⟩

/-- C12 at concrete words: after "no", "note" and "no" the root has count 0. -/
theorem root_count_zero_witness :
    (∀ w ∈ ["no".toList, "note".toList, "no".toList], isWord w) ∧
    (∀ w ∈ ["no".toList, "note".toList, "no".toList], w ≠ []) ∧
    ∃ ch, build [] ["no".toList, "note".toList, "no".toList] = .ok (some ⟨.node ch 0⟩, []) :=
  ⟨by decide, by decide,
    root_count_zero ["no".toList, "note".toList, "no".toList] (by decide) (by decide)⟩

/-- C12 as stated fails: the empty word is a string over a-z of length 0 that `insert`
accepts; the loop is skipped and `count++` is applied to the root, whose count becomes 1. -/
theorem root_count_after_empty_word :
    isWord [] ∧ build [] [[]] = .ok (some ⟨.node (fun _ => .null) 1⟩, []) :=
  ⟨by decide, rfl⟩

/-- C14, the code at the failing input: when `malloc` succeeds for the container and fails
for the root node, `createTrie` returns a trie (not `NULL`) whose root is `NULL`, and the
next `insert` dereferences that `NULL`; when `malloc` fails for the container, `createTrie`
returns `NULL`. -/
theorem createTrie_root_allocation_fails :
    createTrie [true, false] = (some ⟨.null⟩, []) ∧
    insert [] (some ⟨.null⟩) (some "a".toList) = .error .nullDeref ∧
    createTrie [false] = (none, []) :=
  ⟨rfl, rfl, rfl⟩

/-! ## The index into `children` -/

theorem slotIndex_eq (c : Char) : slotIndex c = (c.toNat : Int) - 97 := by
  have ha : 'a'.toNat = 97 := by decide
  simp [slotIndex, ha]

theorem childSlot_eq_none {c : Char} (h : ¬ ('a'.toNat ≤ c.toNat ∧ c.toNat ≤ 'z'.toNat)) :
    childSlot c = none := by
  have ha : 'a'.toNat = 97 := by decide
  have hz : 'z'.toNat = 122 := by decide
  rw [ha, hz] at h
  have hs := slotIndex_eq c
  have hc : ¬ (0 ≤ slotIndex c ∧ slotIndex c < 26) := by omega
  simp [childSlot, hc]

theorem insertLoop_in_bounds (m : List Bool) (t : NodePtr) (w : List Char) (hw : isWord w) :
    insertLoop m t w ≠ .error .outOfBounds := by
  induction w generalizing m t with
  | nil => cases t <;> simp [insertLoop]
  | cons x xs ih =>
    obtain ⟨i, hi, _⟩ := childSlot_of_lower (isWord_cons.1 hw).1
    cases t with
    | null => simp [insertLoop]
    | node ch c =>
      simp only [insertLoop, hi]
      have := ih (if (ch i).isNull then createTrieNode m else (ch i, m)).2
        (if (ch i).isNull then createTrieNode m else (ch i, m)).1 (isWord_cons.1 hw).2
      revert this
      cases insertLoop (if (ch i).isNull then createTrieNode m else (ch i, m)).2
        (if (ch i).isNull then createTrieNode m else (ch i, m)).1 xs with
      | error e => intro h; simpa using h
      | ok r => intro _; simp

theorem findTrieNode_in_bounds (t : NodePtr) (w : List Char) (hw : isWord w) :
    findTrieNode t w ≠ .error .outOfBounds := by
  induction w generalizing t with
  | nil => cases t <;> simp [findTrieNode]
  | cons x xs ih =>
    obtain ⟨i, hi, _⟩ := childSlot_of_lower (isWord_cons.1 hw).1
    cases t with
    | null => simp [findTrieNode]
    | node ch c =>
      simp only [findTrieNode, hi]
      split
      · simp
      · exact ih _ (isWord_cons.1 hw).2

/-- C15: the index `word[i] - 'a'` lies in 0..25 exactly when the character is one of a-z
(also for every `int` value of a character, negative ones included); for a character outside
a-z it is negative or at least 26 and the access to `children` is out of bounds; and on a
word over a-z neither `insert` nor `findTrieNode` ever makes an out-of-bounds access,
whatever the tree and the allocator. -/
theorem slotIndex_in_bounds_iff :
    (∀ c : Char, (0 ≤ slotIndex c ∧ slotIndex c < 26) ↔
      ('a'.toNat ≤ c.toNat ∧ c.toNat ≤ 'z'.toNat)) ∧
    (∀ v : Int, (0 ≤ v - ('a'.toNat : Int) ∧ v - ('a'.toNat : Int) < 26) ↔
      (('a'.toNat : Int) ≤ v ∧ v ≤ ('z'.toNat : Int))) ∧
    (∀ c : Char, ¬ ('a'.toNat ≤ c.toNat ∧ c.toNat ≤ 'z'.toNat) →
      (slotIndex c < 0 ∨ 26 ≤ slotIndex c) ∧
      ∀ (m : List Bool) (ch : Fin 26 → NodePtr) (n : Int) (w : List Char),
        insertLoop m (.node ch n) (c :: w) = .error .outOfBounds ∧
        findTrieNode (.node ch n) (c :: w) = .error .outOfBounds) ∧
    (∀ (m : List Bool) (t : NodePtr) (w : List Char), isWord w →
      insertLoop m t w ≠ .error .outOfBounds ∧ findTrieNode t w ≠ .error .outOfBounds) := by
  have ha : 'a'.toNat = 97 := by decide
  have hz : 'z'.toNat = 122 := by decide
  refine ⟨?_, ?_, ?_, ?_⟩
  · intro c
    rw [slotIndex_eq, ha, hz]; omega
  · intro v
    rw [ha, hz]; omega
  · intro c hc
    have hnone := childSlot_eq_none hc
    refine ⟨?_, ?_⟩
    · rw [slotIndex_eq]; rw [ha, hz] at hc; omega
    · intro m ch n w
      simp [insertLoop, findTrieNode, hnone]
  · intro m t w hw
    exact ⟨insertLoop_in_bounds m t w hw, findTrieNode_in_bounds t w hw⟩

/-- C15 at concrete characters: 'q' is inside, 'A' and the brace after 'z' are outside;
the word "ucf" makes no out-of-bounds access on the sample trie. -/
theorem slotIndex_in_bounds_iff_witness :
    slotIndex 'q' = 16 ∧ slotIndex 'A' = -32 ∧ slotIndex (Char.ofNat 123) = 26 ∧
    isWord "ucf".toList ∧
    (insertLoop [false] sampleTrie.root "ucf".toList ≠ .error .outOfBounds ∧
      findTrieNode sampleTrie.root "ucf".toList ≠ .error .outOfBounds) ∧
    ((slotIndex 'A' < 0 ∨ 26 ≤ slotIndex 'A') ∧
      ∀ (m : List Bool) (ch : Fin 26 → NodePtr) (n : Int) (w : List Char),
        insertLoop m (.node ch n) ('A' :: w) = .error .outOfBounds ∧
        findTrieNode (.node ch n) ('A' :: w) = .error .outOfBounds) :=
  ⟨by decide, by decide, by decide, by decide,
    slotIndex_in_bounds_iff.2.2.2 [false] sampleTrie.root "ucf".toList (by decide),
    slotIndex_in_bounds_iff.2.2.1 'A' (by decide)⟩

/-! ## Positions of a tree after a list of insertions -/

theorem sub_append (t : NodePtr) (p q : List (Fin 26)) : sub t (p ++ q) = sub (sub t p) q := by
  induction p generalizing t with
  | nil => rw [sub_nil]; rfl
  | cons i p ih =>
    cases t with
    | null => simp [sub, sub_null]
    | node ch c => exact ih (ch i)

theorem addAll_cons (t : NodePtr) (w : List Char) (L : List (List Char)) :
    addAll t (w :: L) = addAll (addPath t (path w)) L := rfl

theorem addAll_append (t : NodePtr) (L1 L2 : List (List Char)) :
    addAll t (L1 ++ L2) = addAll (addAll t L1) L2 := by
  simp [addAll, List.foldl_append]

/-- The count at a position after the insertion of a list of words. -/
theorem count_addAll_pos (t : NodePtr) (L : List (List Char)) (p : List (Fin 26))
    (h1 : INT_MIN ≤ (sub t p).countOr0) (h2 : (sub t p).countOr0 ≤ INT_MAX) :
    (sub (addAll t L) p).countOr0 =
      wrapInt ((sub t p).countOr0 + ((L.map path).count p : Int)) := by
  induction L generalizing t with
  | nil => simp [addAll, wrapInt_of_range h1 h2]
  | cons w L ih =>
    have hstep := count_addPath t (path w) p
    rw [addAll_cons]
    by_cases hp : p = path w
    · subst hp
      rw [if_pos rfl] at hstep
      have hr := wrapInt_range ((sub t (path w)).countOr0 + 1)
      rw [ih _ (hstep ▸ hr.1) (hstep ▸ hr.2), hstep, wrapInt_add_one]
      simp [List.count_cons_self]
    · rw [if_neg hp] at hstep
      rw [ih _ (hstep ▸ h1) (hstep ▸ h2), hstep]
      have : ((w :: L).map path).count p = (L.map path).count p := by
        simp [List.count_cons, hp, Ne.symm hp]
      rw [this]

theorem count_map_path (L : List (List Char)) (w : List Char) (hL : ∀ v ∈ L, isWord v)
    (hw : isWord w) : (L.map path).count (path w) = L.count w := by
  induction L with
  | nil => rfl
  | cons v L ih =>
    have hv : isWord v := hL v (List.mem_cons_self _ _)
    have hL2 : ∀ u ∈ L, isWord u := fun u hu => hL u (List.mem_cons_of_mem _ hu)
    by_cases hvw : v = w
    · subst hvw
      simp [List.count_cons_self, ih hL2]
    · have hp : ¬ path v = path w := fun h => hvw (path_injective hv hw h)
      simp [List.count_cons, hvw, hp, ih hL2]

theorem path_a : path "a".toList = [0] := by decide

theorem addPath_oneWordTrie (c : Int) :
    addPath (oneWordTrie c) (path "a".toList) = oneWordTrie (wrapInt (c + 1)) := by
  rw [path_a]
  simp [oneWordTrie, addPath, Function.update_idem]

/-- The tree after `n` insertions of "a" into a trie that holds only "a". -/
theorem addAll_oneWordTrie (n : Nat) (c : Int) (h1 : INT_MIN ≤ c) (h2 : c ≤ INT_MAX) :
    addAll (oneWordTrie c) (List.replicate n "a".toList) = oneWordTrie (wrapInt (c + n)) := by
  induction n generalizing c with
  | zero => simp [addAll, wrapInt_of_range h1 h2]
  | succ n ih =>
    rw [List.replicate_succ, addAll_cons, addPath_oneWordTrie,
      ih _ (wrapInt_range _).1 (wrapInt_range _).2, wrapInt_add_one]
    push_cast
    rfl

/-- The tree after `n + 1` insertions of "a" into the trie of `createTrie`. -/
theorem addAll_replicate_a (n : Nat) :
    addAll (.node (fun _ => .null) 0) (List.replicate (n + 1) "a".toList) =
      oneWordTrie (wrapInt ((n : Int) + 1)) := by
  have h0 : addPath (.node (fun _ => .null) 0) (path "a".toList) = oneWordTrie 1 := by
    rw [path_a]; rfl
  rw [List.replicate_succ, addAll_cons, h0, addAll_oneWordTrie n 1 (by decide) (by decide)]
  congr 2
  omega

theorem isWord_replicate_a (n : Nat) : ∀ w ∈ List.replicate n "a".toList, isWord w := by
  intro w hw
  rw [List.eq_of_mem_replicate hw]
  decide

/-! ## The invariant of the nodes -/

/-- C13 (as amended): in every trie obtained from `createTrie` by the insertion of a list
of words over a-z in which no word occurs more than `INT_MAX` times, every non-root node
with count > 0 lies at the end of the path of an inserted word, and every non-root node with
count 0 has a present child, so no non-root leaf has count 0; stated for the positions of the
tree and for the nodes `findTrieNode` returns.  The list is arbitrary, so the invariant
holds after every further insert within the bound. -/
theorem node_invariant (L : List (List Char)) (hL : ∀ w ∈ L, isWord w)
    (hmax : ∀ w ∈ L, (L.count w : Int) ≤ INT_MAX) :
    ∃ t, build [] L = .ok (some t, []) ∧
      (∀ p ch c, p ≠ [] → sub t.root p = .node ch c →
        (0 < c → ∃ w ∈ L, path w = p) ∧ (c = 0 → ∃ i, (ch i).isNull = false)) ∧
      (∀ W ch c, isWord W → W ≠ [] → findTrieNode t.root W = .ok (.node ch c) →
        (0 < c → W ∈ L) ∧ (c = 0 → ∃ i, (ch i).isNull = false)) := by
  have hpos : ∀ p ch c, p ≠ [] →
      sub (addAll (.node (fun _ => .null) 0) L) p = .node ch c →
      (0 < c → ∃ w ∈ L, path w = p) ∧ (c = 0 → ∃ i, (ch i).isNull = false) := by
    intro p ch c hp hsub
    have hc : c = wrapInt ((L.map path).count p : Int) := by
      have := count_addAll_pos (.node (fun _ => .null) 0) L p
        (by rw [count_fresh]; decide) (by rw [count_fresh]; decide)
      rw [hsub, count_fresh, Int.zero_add] at this
      exact this
    have hpres : (sub (addAll (.node (fun _ => .null) 0) L) p).isNull = false := by
      rw [hsub]; rfl
    rw [present_addAll, sub_fresh_isNull] at hpres
    obtain ⟨w, hw, r, hr⟩ : ∃ w ∈ L, p <+: path w := hpres.resolve_left hp
    constructor
    · intro hc0
      by_cases hmem : p ∈ L.map path
      · obtain ⟨v, hv, rfl⟩ := List.mem_map.1 hmem
        exact ⟨v, hv, rfl⟩
      · rw [List.count_eq_zero_of_not_mem hmem] at hc
        rw [hc] at hc0
        exact absurd hc0 (by decide)
    · intro hc0
      cases r with
      | nil =>
        rw [List.append_nil] at hr
        subst hr
        rw [count_map_path L w hL (hL w hw),
          wrapInt_of_range (by have := Int.ofNat_nonneg (L.count w); unfold INT_MIN; omega)
            (hmax w hw)] at hc
        have : 0 < L.count w := List.count_pos_iff.2 hw
        omega
      | cons i r =>
        refine ⟨i, ?_⟩
        have h2 : (sub (addAll (.node (fun _ => .null) 0) L) (p ++ [i])).isNull = false := by
          rw [present_addAll]
          exact Or.inr ⟨w, hw, r, by rw [← hr]; simp⟩
        rw [sub_append, hsub] at h2
        have h3 : sub (.node ch c) [i] = ch i := sub_nil (ch i)
        rw [h3] at h2
        exact h2
  refine ⟨⟨addAll (.node (fun _ => .null) 0) L⟩, build_eq L hL, hpos, ?_⟩
  intro W ch c hW hne hfind
  rw [findTrieNode_eq_of_isNull _ (addAll_isNull (.node (fun _ => .null) 0) L rfl) W hW] at hfind
  have hsub := Except.ok.inj hfind
  have hp : path W ≠ [] := fun h => hne ((path_eq_nil hW).1 h)
  obtain ⟨h1, h2⟩ := hpos (path W) ch c hp hsub
  refine ⟨fun hc => ?_, h2⟩
  obtain ⟨w, hw, hpw⟩ := h1 hc
  rw [← path_injective (hL w hw) hW hpw]
  exact hw

/-- C13 at concrete words: after "no", "note" and "no", the node of "no" has count 2, the
node of "not" has count 0 and the child `e`. -/
theorem node_invariant_witness :
    (∀ w ∈ ["no".toList, "note".toList, "no".toList], isWord w) ∧
    (∀ w ∈ ["no".toList, "note".toList, "no".toList],
      ((["no".toList, "note".toList, "no".toList].count w : Nat) : Int) ≤ INT_MAX) ∧
    (∃ t, build [] ["no".toList, "note".toList, "no".toList] = .ok (some t, []) ∧
      (∀ p ch c, p ≠ [] → sub t.root p = .node ch c →
        (0 < c → ∃ w ∈ ["no".toList, "note".toList, "no".toList], path w = p) ∧
        (c = 0 → ∃ i, (ch i).isNull = false)) ∧
      (∀ W ch c, isWord W → W ≠ [] → findTrieNode t.root W = .ok (.node ch c) →
        (0 < c → W ∈ ["no".toList, "note".toList, "no".toList]) ∧
        (c = 0 → ∃ i, (ch i).isNull = false))) ∧
    (∃ t, build [] ["no".toList, "note".toList, "no".toList] = .ok (some t, []) ∧
      numberOfOccurrences (some t) (some "no".toList) = .ok 2 ∧
      numberOfOccurrences (some t) (some "not".toList) = .ok 0 ∧
      pathExists t.root "note".toList) :=
  ⟨by decide, by decide,
    node_invariant ["no".toList, "note".toList, "no".toList] (by decide) (by decide),
    ⟨_, rfl, rfl, rfl, ⟨_, rfl, rfl⟩⟩⟩

/-- C13 as stated fails: after 2^32 insertions of "a" the node of "a", which has no child,
has count 0 again. -/
theorem leaf_with_count_zero :
    ∃ t, build [] (List.replicate 4294967296 "a".toList) = .ok (some t, []) ∧
      findTrieNode t.root "a".toList = .ok (.node (fun _ => .null) 0) := by
  refine ⟨_, build_eq _ (isWord_replicate_a _), ?_⟩
  rw [show (4294967296 : Nat) = 4294967295 + 1 from rfl, addAll_replicate_a]
  rfl

/-! ## Sums over the 26 child slots -/

theorem sum_update_children {M : Type} [AddCommMonoid M] (g : NodePtr → M)
    (ch : Fin 26 → NodePtr) (i : Fin 26) (x : NodePtr) :
    ((List.finRange 26).map fun j => g (Function.update ch i x j)).sum + g (ch i) =
      ((List.finRange 26).map fun j => g (ch j)).sum + g x := by
  have e : (fun j => g (Function.update ch i x j)) =
      Function.update (fun j => g (ch j)) i (g x) := by
    funext j
    by_cases h : j = i
    · subst h; simp
    · simp [Function.update_noteq h]
  rw [← Fin.sum_univ_def, ← Fin.sum_univ_def, e,
    Finset.sum_update_of_mem (Finset.mem_univ i),
    Finset.sum_eq_sum_diff_singleton_add (Finset.mem_univ i) (fun j => g (ch j))]
  abel

theorem sum_null_children {M : Type} [AddCommMonoid M] (g : NodePtr → M) (h : g .null = 0) :
    ((List.finRange 26).map fun _ : Fin 26 => g .null).sum = 0 := by
  rw [h]; simp

/-! ## The number of nodes -/

theorem size_addPath_null (p : List (Fin 26)) : (addPath .null p).size = p.length + 1 := by
  induction p with
  | nil => simp [addPath, NodePtr.size]
  | cons i p ih =>
    have h := sum_update_children NodePtr.size (fun _ => .null) i (addPath .null p)
    rw [sum_null_children NodePtr.size rfl, ih] at h
    simp only [addPath, NodePtr.size, List.length_cons]
    simp only [NodePtr.size] at h
    omega

theorem size_addPath (t : NodePtr) (ht : t.isNull = false) (p : List (Fin 26)) :
    (addPath t p).size = t.size + (p.length - matchLen t p) := by
  induction p generalizing t with
  | nil =>
    cases t with
    | null => simp [NodePtr.isNull] at ht
    | node ch c => simp [addPath, NodePtr.size, matchLen]
  | cons i p ih =>
    cases t with
    | null => simp [NodePtr.isNull] at ht
    | node ch c =>
      have h := sum_update_children NodePtr.size ch i (addPath (ch i) p)
      simp only [addPath, NodePtr.size, matchLen, List.length_cons]
      cases hc : (ch i).isNull with
      | true =>
        have hn : ch i = .null := by
          cases h2 : ch i with
          | null => rfl
          | node _ _ => rw [h2] at hc; simp [NodePtr.isNull] at hc
        rw [hn, size_addPath_null] at h
        simp only [NodePtr.size] at h
        simp only [if_true]
        rw [hn]
        omega
      | false =>
        rw [ih (ch i) hc] at h
        simp only [Bool.false_eq_true, if_false]
        have := h
        omega

theorem matchLen_le (t : NodePtr) (p : List (Fin 26)) : matchLen t p ≤ p.length := by
  induction p generalizing t with
  | nil => cases t <;> simp [matchLen]
  | cons i p ih =>
    cases t with
    | null => simp [matchLen]
    | node ch c =>
      simp only [matchLen, List.length_cons]
      split
      · omega
      · have := ih (ch i); omega

theorem present_take_matchLen (t : NodePtr) (ht : t.isNull = false) (p : List (Fin 26))
    (k : Nat) (hk : k ≤ matchLen t p) : (sub t (p.take k)).isNull = false := by
  induction p generalizing t k with
  | nil => simpa [sub_nil] using ht
  | cons i p ih =>
    cases k with
    | zero => simpa [sub_nil] using ht
    | succ k =>
      cases t with
      | null => simp [matchLen] at hk
      | node ch c =>
        simp only [matchLen] at hk
        cases hc : (ch i).isNull with
        | true => rw [hc] at hk; simp at hk
        | false =>
          rw [hc] at hk
          simp only [Bool.false_eq_true, if_false] at hk
          simp only [List.take_succ_cons, sub]
          exact ih (ch i) hc k (by omega)

theorem absent_take_matchLen (t : NodePtr) (ht : t.isNull = false) (p : List (Fin 26))
    (h : matchLen t p < p.length) : (sub t (p.take (matchLen t p + 1))).isNull = true := by
  induction p generalizing t with
  | nil => simp at h
  | cons i p ih =>
    cases t with
    | null => simp [NodePtr.isNull] at ht
    | node ch c =>
      simp only [matchLen, List.length_cons] at h ⊢
      cases hc : (ch i).isNull with
      | true =>
        have hn : ch i = .null := by
          cases h2 : ch i with
          | null => rfl
          | node _ _ => rw [h2] at hc; simp [NodePtr.isNull] at hc
        simp [sub, hn, sub_null, NodePtr.isNull]
      | false =>
        rw [hc] at h
        simp only [Bool.false_eq_true, if_false] at h ⊢
        rw [Nat.add_comm 1, List.take_succ_cons]
        simp only [sub]
        exact ih (ch i) hc (by omega)

theorem matchLen_of_present (t : NodePtr) (p : List (Fin 26))
    (h : (sub t p).isNull = false) : matchLen t p = p.length := by
  induction p generalizing t with
  | nil => cases t <;> simp [matchLen]
  | cons i p ih =>
    obtain ⟨ch, c, rfl, hs⟩ := sub_isNull_of_cons h
    simp only [matchLen, List.length_cons, isNull_of_sub hs, Bool.false_eq_true, if_false,
      ih (ch i) hs]
    omega

theorem path_length {w : List Char} (hw : isWord w) : (path w).length = w.length := by
  induction w with
  | nil => rfl
  | cons c w ih =>
    obtain ⟨i, hi, _⟩ := childSlot_of_lower (isWord_cons.1 hw).1
    rw [path_cons_of_lower hi, List.length_cons, List.length_cons, ih (isWord_cons.1 hw).2]

theorem isWord_take {w : List Char} (hw : isWord w) (k : Nat) : isWord (w.take k) :=
  fun c hc => hw c (List.mem_of_mem_take hc)

theorem path_take {w : List Char} (hw : isWord w) (k : Nat) :
    path (w.take k) = (path w).take k := by
  induction w generalizing k with
  | nil => simp [path]
  | cons c w ih =>
    cases k with
    | zero => simp [path]
    | succ k =>
      obtain ⟨i, hi, _⟩ := childSlot_of_lower (isWord_cons.1 hw).1
      rw [List.take_succ_cons, path_cons_of_lower hi, path_cons_of_lower hi,
        List.take_succ_cons, ih (isWord_cons.1 hw).2]

theorem pathExists_iff (t : NodePtr) (ht : t.isNull = false) (w : List Char) (hw : isWord w) :
    pathExists t w ↔ (sub t (path w)).isNull = false := by
  unfold pathExists
  rw [findTrieNode_eq_of_isNull t ht w hw]
  constructor
  · rintro ⟨r, hr, hn⟩
    rw [Except.ok.inj hr]; exact hn
  · intro h; exact ⟨_, rfl, h⟩

/-- C16: for every trie with a root node and every word `W` over a-z, `insert` returns
normally; with `n` the length of the longest initial segment of `W` whose path exists in the
trie (every segment up to `n` exists, the one of length `n + 1` does not), the number of nodes
after the insert is the number before plus `|W| - n`; when the whole path exists no node is
created; and every position that held a node before holds one after. -/
theorem insert_creates_missing_nodes (t : Trie) (W : List Char)
    (hroot : t.root.isNull = false) (hW : isWord W) :
    ∃ t' n, insert [] (some t) (some W) = .ok (some t', []) ∧ n ≤ W.length ∧
      (∀ k, k ≤ n → pathExists t.root (W.take k)) ∧
      (n < W.length → ¬ pathExists t.root (W.take (n + 1))) ∧
      t'.root.size = t.root.size + (W.length - n) ∧
      (pathExists t.root W → t'.root.size = t.root.size) ∧
      (∀ p, (sub t.root p).isNull = false → (sub t'.root p).isNull = false) := by
  obtain ⟨r⟩ := t
  have hlen := path_length hW
  refine ⟨⟨addPath r (path W)⟩, matchLen r (path W), insert_eq_of_isNull r hroot W hW,
    hlen ▸ matchLen_le r (path W), ?_, ?_, ?_, ?_, ?_⟩
  · intro k hk
    rw [pathExists_iff r hroot _ (isWord_take hW k), path_take hW]
    exact present_take_matchLen r hroot (path W) k hk
  · intro hn
    rw [pathExists_iff r hroot _ (isWord_take hW _), path_take hW,
      absent_take_matchLen r hroot (path W) (hlen ▸ hn)]
    simp
  · rw [← hlen]; exact size_addPath r hroot (path W)
  · intro h
    rw [pathExists_iff r hroot W hW] at h
    show (addPath r (path W)).size = r.size
    rw [size_addPath r hroot, matchLen_of_present r (path W) h]
    omega
  · intro p hp
    exact (present_addPath r (path W) p).2 (Or.inl hp)

/-- C16 at a concrete trie: the sample trie has 2 nodes and the path of "n"; inserting
"note" creates 3 nodes, inserting "n" creates none. -/
theorem insert_creates_missing_nodes_witness :
    sampleTrie.root.isNull = false ∧ isWord "note".toList ∧
    (∃ t' n, insert [] (some sampleTrie) (some "note".toList) = .ok (some t', []) ∧
      n ≤ "note".toList.length ∧
      (∀ k, k ≤ n → pathExists sampleTrie.root ("note".toList.take k)) ∧
      (n < "note".toList.length → ¬ pathExists sampleTrie.root ("note".toList.take (n + 1))) ∧
      t'.root.size = sampleTrie.root.size + ("note".toList.length - n) ∧
      (pathExists sampleTrie.root "note".toList → t'.root.size = sampleTrie.root.size) ∧
      (∀ p, (sub sampleTrie.root p).isNull = false → (sub t'.root p).isNull = false)) ∧
    sampleTrie.root.size = 2 ∧
    (∃ t', insert [] (some sampleTrie) (some "note".toList) = .ok (some t', []) ∧
      t'.root.size = 5) ∧
    (∃ t', insert [] (some sampleTrie) (some "n".toList) = .ok (some t', []) ∧
      t'.root.size = 2) :=
  ⟨rfl, by decide, insert_creates_missing_nodes sampleTrie "note".toList rfl (by decide),
    by decide, ⟨_, rfl, by decide⟩, ⟨_, rfl, by decide⟩⟩

/-! ## The order of insertions -/

theorem addPath_comm (t : NodePtr) (p q : List (Fin 26)) :
    addPath (addPath t p) q = addPath (addPath t q) p := by
  induction p generalizing t q with
  | nil =>
    cases q with
    | nil => rfl
    | cons j q => cases t <;> simp [addPath]
  | cons i p ih =>
    cases q with
    | nil => cases t <;> simp [addPath]
    | cons j q =>
      by_cases hij : i = j
      · subst hij
        cases t with
        | null => simp [addPath, Function.update_idem, ih]
        | node ch c => simp [addPath, Function.update_idem, ih]
      · have hji : ¬ j = i := fun h => hij h.symm
        cases t with
        | null =>
          simp [addPath, Function.update_noteq hij, Function.update_noteq hji,
            Function.update_comm hij]
        | node ch c =>
          simp [addPath, Function.update_noteq hij, Function.update_noteq hji,
            Function.update_comm hij]

theorem addAll_perm (t : NodePtr) {L1 L2 : List (List Char)} (h : L1.Perm L2) :
    addAll t L1 = addAll t L2 := by
  haveI : RightCommutative (fun (t : NodePtr) (w : List Char) => addPath t (path w)) :=
    ⟨fun t w1 w2 => addPath_comm t (path w1) (path w2)⟩
  exact h.foldl_eq t

/-- C18: for lists `L1`, `L2` of words over a-z that are permutations of each other,
`createTrie` followed by the insertions of `L1` and of `L2` return the same trie (the same
child slots and the same count at every position); and for every trie with a root node,
inserting `W1` then `W2` returns the same trie as inserting `W2` then `W1`. -/
theorem insert_order_irrelevant (L1 L2 : List (List Char)) (t : Trie) (W1 W2 : List Char)
    (hperm : L1.Perm L2) (hL : ∀ w ∈ L1, isWord w)
    (hroot : t.root.isNull = false) (h1 : isWord W1) (h2 : isWord W2) :
    (∃ r, build [] L1 = .ok (some r, []) ∧ build [] L2 = .ok (some r, [])) ∧
    (∃ t1 t2 t12, insert [] (some t) (some W1) = .ok (some t1, []) ∧
      insert [] (some t1) (some W2) = .ok (some t12, []) ∧
      insert [] (some t) (some W2) = .ok (some t2, []) ∧
      insert [] (some t2) (some W1) = .ok (some t12, [])) := by
  constructor
  · have hL2 : ∀ w ∈ L2, isWord w := fun w hw => hL w (hperm.mem_iff.2 hw)
    refine ⟨⟨addAll (.node (fun _ => .null) 0) L1⟩, build_eq L1 hL, ?_⟩
    rw [build_eq L2 hL2, addAll_perm _ hperm]
  · obtain ⟨r⟩ := t
    refine ⟨⟨addPath r (path W1)⟩, ⟨addPath r (path W2)⟩,
      ⟨addPath (addPath r (path W1)) (path W2)⟩, insert_eq_of_isNull r hroot W1 h1,
      insert_eq_of_isNull _ (addPath_isNull r _) W2 h2, insert_eq_of_isNull r hroot W2 h2, ?_⟩
    rw [insert_eq_of_isNull _ (addPath_isNull r _) W1 h1, addPath_comm]

/-- C18 at concrete inputs: the lists "no","note","ucf" and "ucf","no","note"; the words
"no" and "ni" on the sample trie. -/
theorem insert_order_irrelevant_witness :
    List.Perm ["no".toList, "note".toList, "ucf".toList]
      ["ucf".toList, "no".toList, "note".toList] ∧
    (∀ w ∈ ["no".toList, "note".toList, "ucf".toList], isWord w) ∧
    sampleTrie.root.isNull = false ∧ isWord "no".toList ∧ isWord "ni".toList ∧
    ((∃ r, build [] ["no".toList, "note".toList, "ucf".toList] = .ok (some r, []) ∧
        build [] ["ucf".toList, "no".toList, "note".toList] = .ok (some r, [])) ∧
      (∃ t1 t2 t12, insert [] (some sampleTrie) (some "no".toList) = .ok (some t1, []) ∧
        insert [] (some t1) (some "ni".toList) = .ok (some t12, []) ∧
        insert [] (some sampleTrie) (some "ni".toList) = .ok (some t2, []) ∧
        insert [] (some t2) (some "no".toList) = .ok (some t12, []))) :=
  ⟨by decide, by decide, rfl, by decide, by decide,
    insert_order_irrelevant ["no".toList, "note".toList, "ucf".toList]
      ["ucf".toList, "no".toList, "note".toList] sampleTrie "no".toList "ni".toList
      (by decide) (by decide) rfl (by decide) (by decide)⟩

/-! ## The sum of the counts -/

/-- An insertion changes the sum of the counts by the change of the count at the end of the
path. -/
theorem sumCounts_addPath (t : NodePtr) (p : List (Fin 26)) :
    (addPath t p).sumCounts =
      t.sumCounts + (wrapInt ((sub t p).countOr0 + 1) - (sub t p).countOr0) := by
  induction p generalizing t with
  | nil =>
    cases t with
    | null => simp [addPath, NodePtr.sumCounts, sub, NodePtr.countOr0]
    | node ch c => simp [addPath, NodePtr.sumCounts, sub, NodePtr.countOr0]; omega
  | cons i p ih =>
    cases t with
    | null =>
      have h := sum_update_children NodePtr.sumCounts (fun _ => .null) i (addPath .null p)
      rw [sum_null_children NodePtr.sumCounts rfl, ih] at h
      simp only [addPath, NodePtr.sumCounts, sub, sub_null, NodePtr.countOr0] at h ⊢
      omega
    | node ch c =>
      have h := sum_update_children NodePtr.sumCounts ch i (addPath (ch i) p)
      rw [ih] at h
      simp only [addPath, NodePtr.sumCounts, sub]
      omega

theorem sumCounts_addAll_fresh (L : List (List Char)) (hL : ∀ w ∈ L, isWord w)
    (hmax : ∀ w ∈ L, (L.count w : Int) ≤ INT_MAX) :
    (addAll (.node (fun _ => .null) 0) L).sumCounts = (L.length : Int) := by
  induction L using List.reverseRecOn with
  | nil => simp [addAll, NodePtr.sumCounts]
  | append_singleton L w ih =>
    have hL1 : ∀ v ∈ L, isWord v := fun v hv => hL v (List.mem_append_left _ hv)
    have hw : isWord w := hL w (by simp)
    have hmax1 : ∀ v ∈ L, (L.count v : Int) ≤ INT_MAX := by
      intro v hv
      have h1 := hmax v (List.mem_append_left _ hv)
      rw [List.count_append] at h1
      push_cast at h1
      have := Int.ofNat_nonneg (List.count v [w])
      omega
    have hcw : (L.count w : Int) + 1 ≤ INT_MAX := by
      have h1 := hmax w (by simp)
      rw [List.count_append, List.count_singleton_self] at h1
      push_cast at h1
      exact h1
    have hc : (sub (addAll (.node (fun _ => .null) 0) L) (path w)).countOr0 = (L.count w : Int) := by
      rw [count_addAll _ L w hL1 hw (by rw [count_fresh]; decide) (by rw [count_fresh]; decide),
        count_fresh, Int.zero_add]
      apply wrapInt_of_range
      · have := Int.ofNat_nonneg (L.count w); unfold INT_MIN; omega
      · omega
    rw [addAll_append]
    show (addPath (addAll (.node (fun _ => .null) 0) L) (path w)).sumCounts = _
    rw [sumCounts_addPath, ih hL1 hmax1, hc, wrapInt_of_range
      (by have := Int.ofNat_nonneg (L.count w); unfold INT_MIN; omega) hcw]
    simp

/-- C19 (as amended): for every list `L` of words over a-z and every further word `W` over
a-z such that no word is inserted more than `INT_MAX` times in all, `createTrie`, the
insertions of `L` and the insertion of `W` return normally; the sum of the `count` fields is
`|L|` after the insertions of `L` and `|L| + 1` after the insertion of `W`, which raises the
count at the end of the path of `W` by one and leaves the count at every other position
unchanged. -/
theorem sum_of_counts (L : List (List Char)) (W : List Char)
    (hL : ∀ w ∈ L ++ [W], isWord w)
    (hmax : ∀ w ∈ L ++ [W], ((L ++ [W]).count w : Int) ≤ INT_MAX) :
    ∃ t t', build [] L = .ok (some t, []) ∧ insert [] (some t) (some W) = .ok (some t', []) ∧
      build [] (L ++ [W]) = .ok (some t', []) ∧
      t.root.sumCounts = (L.length : Int) ∧ t'.root.sumCounts = (L.length : Int) + 1 ∧
      (sub t'.root (path W)).countOr0 = (sub t.root (path W)).countOr0 + 1 ∧
      (∀ p, p ≠ path W → (sub t'.root p).countOr0 = (sub t.root p).countOr0) := by
  have hL1 : ∀ v ∈ L, isWord v := fun v hv => hL v (List.mem_append_left _ hv)
  have hW : isWord W := hL W (by simp)
  have hmax1 : ∀ v ∈ L, (L.count v : Int) ≤ INT_MAX := by
    intro v hv
    have h1 := hmax v (List.mem_append_left _ hv)
    rw [List.count_append] at h1
    push_cast at h1
    have := Int.ofNat_nonneg (List.count v [W])
    omega
  have hcw : (L.count W : Int) + 1 ≤ INT_MAX := by
    have h1 := hmax W (by simp)
    rw [List.count_append, List.count_singleton_self] at h1
    push_cast at h1
    exact h1
  have hnull := addAll_isNull (.node (fun _ => .null) 0) L rfl
  have hs := sumCounts_addAll_fresh (L ++ [W]) hL hmax
  rw [addAll_append] at hs
  have hc : (sub (addAll (.node (fun _ => .null) 0) L) (path W)).countOr0 = (L.count W : Int) := by
    rw [count_addAll _ L W hL1 hW (by rw [count_fresh]; decide) (by rw [count_fresh]; decide),
      count_fresh, Int.zero_add]
    apply wrapInt_of_range
    · have := Int.ofNat_nonneg (L.count W); unfold INT_MIN; omega
    · omega
  refine ⟨⟨addAll (.node (fun _ => .null) 0) L⟩,
    ⟨addPath (addAll (.node (fun _ => .null) 0) L) (path W)⟩, build_eq L hL1,
    insert_eq_of_isNull _ hnull W hW, ?_, sumCounts_addAll_fresh L hL1 hmax1, ?_, ?_, ?_⟩
  · rw [build_eq _ hL, addAll_append]; rfl
  · have : (addPath (addAll (.node (fun _ => .null) 0) L) (path W)).sumCounts =
        ((L ++ [W]).length : Int) := hs
    rw [this]; simp
  · show (sub (addPath (addAll (.node (fun _ => .null) 0) L) (path W)) (path W)).countOr0 = _
    rw [count_addPath, if_pos rfl, hc, wrapInt_of_range
      (by have := Int.ofNat_nonneg (L.count W); unfold INT_MIN; omega) hcw]
  · intro p hp
    show (sub (addPath (addAll (.node (fun _ => .null) 0) L) (path W)) p).countOr0 = _
    rw [count_addPath, if_neg hp]

/-- C19 at concrete words: after "no", "note", "no" the sum of the counts is 3, after a
further "ucf" it is 4. -/
theorem sum_of_counts_witness :
    (∀ w ∈ ["no".toList, "note".toList, "no".toList] ++ ["ucf".toList], isWord w) ∧
    (∀ w ∈ ["no".toList, "note".toList, "no".toList] ++ ["ucf".toList],
      (((["no".toList, "note".toList, "no".toList] ++ ["ucf".toList]).count w : Nat) : Int) ≤
        INT_MAX) ∧
    ∃ t t', build [] ["no".toList, "note".toList, "no".toList] = .ok (some t, []) ∧
      insert [] (some t) (some "ucf".toList) = .ok (some t', []) ∧
      build [] (["no".toList, "note".toList, "no".toList] ++ ["ucf".toList]) =
        .ok (some t', []) ∧
      t.root.sumCounts = (["no".toList, "note".toList, "no".toList].length : Int) ∧
      t'.root.sumCounts = (["no".toList, "note".toList, "no".toList].length : Int) + 1 ∧
      (sub t'.root (path "ucf".toList)).countOr0 =
        (sub t.root (path "ucf".toList)).countOr0 + 1 ∧
      (∀ p, p ≠ path "ucf".toList → (sub t'.root p).countOr0 = (sub t.root p).countOr0) :=
  ⟨by decide, by decide,
    sum_of_counts ["no".toList, "note".toList, "no".toList] "ucf".toList (by decide)
      (by decide)⟩

/-- C19 as stated fails: after k = 2^31 insertions of "a" the only non-zero count is the
`int` count of "a", and the sum of the counts is -2147483648, not k. -/
theorem sum_of_counts_overflow :
    ∃ t, build [] (List.replicate 2147483648 "a".toList) = .ok (some t, []) ∧
      (List.replicate 2147483648 "a".toList).length = 2147483648 ∧
      t.root.sumCounts = -2147483648 := by
  refine ⟨_, build_eq _ (isWord_replicate_a _), List.length_replicate _ _, ?_⟩
  rw [show (2147483648 : Nat) = 2147483647 + 1 from rfl, addAll_replicate_a]
  decide

/-! ## The dictionary loader -/

theorem fgetsChars_line (n : Nat) (l rest : List Char) (hn : l.length < n) (hl : NL ∉ l) :
    fgetsChars n (l ++ NL :: rest) = (l ++ [NL], rest) := by
  induction l generalizing n with
  | nil =>
    cases n with
    | zero => simp at hn
    | succ n => simp [fgetsChars]
  | cons c l ih =>
    cases n with
    | zero => simp at hn
    | succ n =>
      have hc : c ≠ NL := fun h => hl (by simp [h])
      have hl2 : NL ∉ l := fun h => hl (List.mem_cons_of_mem _ h)
      have e : (c :: l) ++ NL :: rest = c :: (l ++ NL :: rest) := rfl
      rw [e, fgetsChars, if_neg hc, ih n (by simpa using hn) hl2]
      rfl

theorem fgetsChars_last (n : Nat) (l : List Char) (hn : l.length ≤ n) (hl : NL ∉ l) :
    fgetsChars n l = (l, []) := by
  induction l generalizing n with
  | nil => cases n <;> rfl
  | cons c l ih =>
    cases n with
    | zero => simp at hn
    | succ n =>
      have hc : c ≠ NL := fun h => hl (by simp [h])
      have hl2 : NL ∉ l := fun h => hl (List.mem_cons_of_mem _ h)
      rw [fgetsChars, if_neg hc, ih n (by simpa using hn) hl2]

theorem cString_of_no_nul (l : List Char) (h : NUL ∉ l) : cString l = l := by
  unfold cString
  rw [List.takeWhile_eq_self_iff]
  intro x hx
  simpa using fun hxn : x = NUL => h (hxn ▸ hx)

theorem strcspn_line (l tail : List Char) (h : NL ∉ l) :
    strcspn (l ++ NL :: tail) [NL] = l.length := by
  unfold strcspn
  rw [List.takeWhile_append_of_pos]
  · simp [List.takeWhile]
  · intro x hx
    simpa using fun hxn : x = NL => h (hxn ▸ hx)

theorem strcspn_last (l : List Char) (h : NL ∉ l) : strcspn l [NL] = l.length := by
  unfold strcspn
  rw [List.takeWhile_eq_self_iff.2]
  intro x hx
  simpa using fun hxn : x = NL => h (hxn ▸ hx)

/-- The word stored for a line that `fgets` read with its newline. -/
theorem word_of_line (l : List Char) (hl : NL ∉ l) (h0 : NUL ∉ l) :
    cString ((l ++ [NL]).set (strcspn (cString (l ++ [NL])) [NL]) NUL) = l := by
  have hnl : NUL ∉ l ++ [NL] := by
    simp only [List.mem_append, List.mem_singleton, not_or]
    exact ⟨h0, by decide⟩
  rw [cString_of_no_nul _ hnl, strcspn_line l [] hl, List.set_append_right _ _ (le_refl _)]
  simp only [Nat.sub_self, List.set_cons_zero]
  unfold cString
  rw [List.takeWhile_append_of_pos]
  · simp [List.takeWhile]
  · intro x hx
    simpa using fun hxn : x = NUL => h0 (hxn ▸ hx)

/-- The word stored for a last line without a newline. -/
theorem word_of_last (l : List Char) (hl : NL ∉ l) (h0 : NUL ∉ l) :
    cString (l.set (strcspn (cString l) [NL]) NUL) = l := by
  rw [cString_of_no_nul _ h0, strcspn_last l hl, List.set_eq_of_length_le (le_refl _),
    cString_of_no_nul _ h0]

theorem readLoop_lines (lines : List (List Char)) (last : List Char)
    (words : List (Option (List Char))) (fuel : Nat)
    (hfuel : ((lines.map fun l => l ++ [NL]).flatten ++ last).length < fuel)
    (hcap : words.length + (lines ++ (if last = [] then [] else [last])).length ≤ 256)
    (hlines : ∀ l ∈ lines, l.length < 255 ∧ NL ∉ l ∧ NUL ∉ l)
    (hlast : last.length < 255 ∧ NL ∉ last ∧ NUL ∉ last) :
    readLoop 256 fuel [] ((lines.map fun l => l ++ [NL]).flatten ++ last) words =
      .ok (words ++ (lines ++ (if last = [] then [] else [last])).map some, []) := by
  induction lines generalizing words fuel with
  | nil =>
    cases fuel with
    | zero => simp at hfuel
    | succ fuel =>
      cases hl : last with
      | nil => simp [readLoop, fgets]
      | cons c r =>
        rw [← hl]
        have hne : last ≠ [] := by rw [hl]; simp
        have hf : fgets 256 last = (some last, []) := by
          rw [hl, fgets, ← hl, fgetsChars_last 255 last (by omega) hlast.2.1]
        simp only [List.map_nil, List.flatten_nil, List.nil_append, if_neg hne,
          List.length_singleton] at hcap hfuel ⊢
        cases fuel with
        | zero => rw [hl] at hfuel; simp at hfuel
        | succ fuel =>
          rw [readLoop, hf]
          simp only [word_of_last last hlast.2.1 hlast.2.2, strdup, malloc,
            if_pos (show words.length < 256 by omega)]
          rw [readLoop]
          simp [fgets]
  | cons l lines ih =>
    cases fuel with
    | zero => simp at hfuel
    | succ fuel =>
      obtain ⟨h1, h2, h3⟩ := hlines l (List.mem_cons_self _ _)
      have hrest : ∀ x ∈ lines, x.length < 255 ∧ NL ∉ x ∧ NUL ∉ x :=
        fun x hx => hlines x (List.mem_cons_of_mem _ hx)
      have hfile : (List.map (fun l => l ++ [NL]) (l :: lines)).flatten ++ last =
          l ++ NL :: ((List.map (fun l => l ++ [NL]) lines).flatten ++ last) := by
        simp
      have hf : fgets 256 (l ++ NL :: ((List.map (fun l => l ++ [NL]) lines).flatten ++ last)) =
          (some (l ++ [NL]), (List.map (fun l => l ++ [NL]) lines).flatten ++ last) := by
        have := fgetsChars_line 255 l ((List.map (fun l => l ++ [NL]) lines).flatten ++ last)
          (by omega) h2
        cases hl : l ++ NL :: ((List.map (fun l => l ++ [NL]) lines).flatten ++ last) with
        | nil => simp at hl
        | cons c r => rw [fgets, ← hl, this]
      simp only [List.cons_append, List.length_cons] at hcap
      rw [hfile] at hfuel ⊢
      have hfuel2 : ((List.map (fun l => l ++ [NL]) lines).flatten ++ last).length < fuel := by
        rw [List.length_append, List.length_cons] at hfuel
        omega
      have hwords : (words ++ [some l]).length = words.length + 1 := by simp
      rw [readLoop, hf]
      simp only [word_of_line l h2 h3, strdup, malloc,
        if_pos (show words.length < 256 by omega)]
      rw [ih (words ++ [some l]) fuel hfuel2 (by rw [hwords]; omega) hrest]
      simp

/-- C17 (as amended): for a file of at most 256 lines, each line shorter than 255 bytes,
free of NUL bytes and terminated by a newline (the last line optionally unterminated),
`readDictionary` returns the number of lines and stores as its i-th word exactly the i-th
line without its newline, in file order (`strdup` succeeding). -/
theorem readDictionary_reads_lines (lines : List (List Char)) (last : List Char)
    (hcount : (lines ++ (if last = [] then [] else [last])).length ≤ 256)
    (hlines : ∀ l ∈ lines, l.length < 255 ∧ NL ∉ l ∧ NUL ∉ l)
    (hlast : last.length < 255 ∧ NL ∉ last ∧ NUL ∉ last) :
    readDictionary [] (some ((lines.map fun l => l ++ [NL]).flatten ++ last)) 256 =
      .ok (some (((lines ++ (if last = [] then [] else [last])).length : Int),
        (lines ++ (if last = [] then [] else [last])).map some), []) := by
  simp only [readDictionary]
  rw [readLoop_lines lines last [] _ (Nat.lt_succ_self _) (by simpa using hcount) hlines hlast]
  simp only [List.nil_append, List.length_map]
  rw [wrapInt_of_range (by unfold INT_MIN; omega) (by unfold INT_MAX; omega)]

/-- C17 at a concrete file: the three lines "ucf", "knights" and an unterminated "no". -/
theorem readDictionary_reads_lines_witness :
    (["ucf".toList, "knights".toList] ++
      (if "no".toList = [] then [] else ["no".toList])).length ≤ 256 ∧
    (∀ l ∈ ["ucf".toList, "knights".toList], l.length < 255 ∧ NL ∉ l ∧ NUL ∉ l) ∧
    ("no".toList.length < 255 ∧ NL ∉ "no".toList ∧ NUL ∉ "no".toList) ∧
    readDictionary []
      (some ((["ucf".toList, "knights".toList].map fun l => l ++ [NL]).flatten ++ "no".toList))
      256 =
      .ok (some (((["ucf".toList, "knights".toList] ++
          (if "no".toList = [] then [] else ["no".toList])).length : Int),
        (["ucf".toList, "knights".toList] ++
          (if "no".toList = [] then [] else ["no".toList])).map some), []) ∧
    readDictionary [] (some ("ucf".toList ++ [NL] ++ "knights".toList ++ [NL] ++ "no".toList))
      256 = .ok (some (3, [some "ucf".toList, some "knights".toList, some "no".toList]), []) :=
  ⟨by decide, by decide, by decide,
    readDictionary_reads_lines ["ucf".toList, "knights".toList] "no".toList (by decide)
      (by decide) (by decide), rfl⟩

/-- C17 as stated fails: a line of three bytes with a NUL in the middle, terminated by a
newline, is stored as the word "a": `strcspn` and `strdup` stop at the NUL. -/
theorem readDictionary_line_with_nul :
    readDictionary [] (some (['a', NUL, 'b'] ++ [NL])) 256 = .ok (some (1, [some ['a']]), []) ∧
    ['a', NUL, 'b'].length < 255 ∧ NL ∉ ['a', NUL, 'b'] ∧ ['a'] ≠ ['a', NUL, 'b'] :=
  ⟨rfl, by decide, by decide, by decide⟩

end Lab10
